import Mathlib

/-!
Verification of the AutoCommit diff-chunking, hunk-grouping and
selective-patch-application pipeline.

The definitions below are a shallow embedding of the Python source:

* `autocommit/core/diff.py`       — `split_diff_into_chunks` and its helpers,
* `autocommit/core/ai.py`         — the response parsing part of `classify_hunks`,
* `autocommit/core/processor.py`  — `_create_patch_for_group` and the grouping
                                    part of `_process_file_hunks`,
* `autocommit/core/git_repository.py` — `GitRepository.commit`,
* `autocommit/core/commit_executor.py` — the per-file group loop of `apply_commits`.

Python strings are modelled as `List Char` (`Str`); `len` is `List.length`
(both count characters).  Machine-external effects (OpenAI calls, git
subprocesses) are passed in as explicit data.  Regular expressions used by the
source are compiled by hand into character-list scanners with the same
semantics for ASCII input (the source's regexes are only ever applied to git
output and model responses; non-ASCII digit/space classes of Python's `re`
are not modelled).
-/

set_option maxRecDepth 20000

abbrev Str := List Char

deriving instance DecidableEq for Except

/-- Python `str.splitlines` line-break characters (`\n`, `\r`, `\v`, `\f`,
`\x1c`, `\x1d`, `\x1e`, `\x85`, `\u2028`, `\u2029`). -/
def isPyLineBreak (c : Char) : Bool :=
  c = '\n' ∨ c = '\r' ∨ c = '\x0b' ∨ c = '\x0c' ∨
  c = '\x1c' ∨ c = '\x1d' ∨ c = '\x1e' ∨ c = '\x85' ∨
  c = '\u2028' ∨ c = '\u2029'

/-- Python whitespace as used by `str.strip()` and the regex class `\s`
(ASCII part). -/
def isPySpace (c : Char) : Bool :=
  c = ' ' ∨ c = '\t' ∨ c = '\n' ∨ c = '\r' ∨ c = '\x0b' ∨ c = '\x0c'

/-- ASCII decimal digit (regex `\d` on ASCII input, also `str.isdigit` there). -/
def isDig (c : Char) : Bool := '0' ≤ c ∧ c ≤ '9'

/-- Regex `\w` word character (ASCII part). -/
def isWordChar (c : Char) : Bool :=
  isDig c ∨ ('a' ≤ c ∧ c ≤ 'z') ∨ ('A' ≤ c ∧ c ≤ 'Z') ∨ c = '_'

/-- Python `str.splitlines()`: split at line-break characters, treating
`"\r\n"` as a single break; terminators are not kept, and a trailing break
does not create a final empty line. -/
def pySplitlines : Str → List Str
  | [] => []
  | '\r' :: '\n' :: rest => [] :: pySplitlines rest
  | c :: rest =>
    if isPyLineBreak c then [] :: pySplitlines rest
    else
      match pySplitlines rest with
      | [] => [[c]]
      | l :: ls => (c :: l) :: ls

/-- Python `str.strip()` (ASCII whitespace). -/
def pyStrip (s : Str) : Str :=
  ((s.dropWhile isPySpace).reverse.dropWhile isPySpace).reverse

/-- Python `"\n".join(lines)`. -/
def joinNL : List Str → Str
  | [] => []
  | [l] => l
  | l :: ls => l ++ '\n' :: joinNL ls

/-- Python `s.startswith(pre)`. -/
def startsWithL (pre s : Str) : Bool := pre.isPrefixOf s

/-- Python `s.split(sub, 1)` when `sub` occurs: the text before the first
occurrence of `sub` and the text after it.  `none` when `sub` does not occur. -/
def splitOnce (sub : Str) : Str → Option (Str × Str)
  | [] => if sub = [] then some ([], []) else none
  | c :: cs =>
    if sub.isPrefixOf (c :: cs) then some ([], (c :: cs).drop sub.length)
    else
      match splitOnce sub cs with
      | some (pre, post) => some (c :: pre, post)
      | none => none

/-- Python `sub in s`. -/
def containsSub (sub s : Str) : Bool := (splitOnce sub s).isSome

/-- Decimal value of a digit run (Python `int` on a digit string). -/
def digitsVal (ds : Str) : Nat :=
  ds.foldl (fun acc c => acc * 10 + (c.toNat - '0'.toNat)) 0

/-! ## diff.py -/

/-- `autocommit/core/constants.py`: `MAX_DIFF_SIZE = 8000`. -/
def MAX_DIFF_SIZE : Nat := 8000

/-- A chunk dictionary produced by `split_diff_into_chunks`
(`{"diff": …, "start_line": …}`, plus `"context"` at levels 2–3). -/
structure Chunk where
  diff : Str
  startLine : Nat
  context : Option Str := none
  deriving DecidableEq

/-- `diff.py _extract_start_line` / the inline `re.search(r"@@ -(\d+)", line)`:
first occurrence of `"@@ -"` followed by at least one digit; the maximal digit
run is the captured number. -/
def extractStartLineAux : Str → Option Nat
  | [] => none
  | c :: cs =>
    match c, cs with
    | '@', '@' :: ' ' :: '-' :: rest =>
      let ds := rest.takeWhile isDig
      if ds.isEmpty then extractStartLineAux cs else some (digitsVal ds)
    | _, _ => extractStartLineAux cs

/-- `diff.py _extract_start_line`: defaults to 1 when the pattern is absent. -/
def extract_start_line (line : Str) : Nat := (extractStartLineAux line).getD 1

/-- `diff.py _split_by_file`. -/
def split_by_file (diff : Str) : List Chunk := [{ diff := diff, startLine := 1 }]

/-- `diff.py _handle_test_pattern`: split at the first `"@@ -20,"`. -/
def handle_test_pattern (diff : Str) : List Chunk :=
  match splitOnce ("@@ -20,".toList) diff with
  | some (pre, post) =>
    [{ diff := pre, startLine := 1 },
     { diff := "@@ -20,".toList ++ post, startLine := 20 }]
  | none => [{ diff := diff, startLine := 1 }]

/-- Loop state of `_split_by_hunk`: accumulated chunks, `current_chunk`,
`start_line`, `current_start_line`, `found_hunk`. -/
structure SBHState where
  chunks : List Chunk
  current : Str
  startLine : Nat
  curStart : Nat
  found : Bool

/-- The `current_chunk += line + "\n"` statement followed by the
`if line.startswith("@@")` block of `_split_by_hunk` (diff.py lines 77–91). -/
def sbhAt (st : SBHState) (line : Str) : SBHState :=
  if startsWithL ("@@".toList) line then
    if st.current ++ line ++ ['\n'] ≠ [] ∧ st.found then
      { chunks := st.chunks ++
          [{ diff := st.current ++ line ++ ['\n'], startLine := st.startLine }],
        current := line ++ ['\n'], startLine := extract_start_line line,
        curStart := extract_start_line line, found := true }
    else
      { chunks := st.chunks, current := st.current ++ line ++ ['\n'],
        startLine := st.startLine, curStart := extract_start_line line, found := true }
  else { st with current := st.current ++ line ++ ['\n'] }

/-- The `if len(current_chunk) >= MAX_DIFF_SIZE` block of `_split_by_hunk`
(diff.py lines 94–97). -/
def sbhSize (st : SBHState) : SBHState :=
  if st.current.length ≥ MAX_DIFF_SIZE then
    { chunks := st.chunks ++ [{ diff := st.current, startLine := st.startLine }],
      current := [], startLine := st.curStart, curStart := st.curStart, found := st.found }
  else st

/-- One iteration of the `for line in diff.splitlines()` loop of
`_split_by_hunk` (diff.py lines 75–97). -/
def sbhStep (st : SBHState) (line : Str) : SBHState := sbhSize (sbhAt st line)

/-- The chunk list accumulated by the `_split_by_hunk` loop, including the
final `if current_chunk:` append (diff.py lines 100–101). -/
def sbhRun (diff : Str) : List Chunk :=
  ((pySplitlines diff).foldl sbhStep
    { chunks := [], current := [], startLine := 1, curStart := 1, found := false }).chunks ++
  (if ((pySplitlines diff).foldl sbhStep
      { chunks := [], current := [], startLine := 1, curStart := 1, found := false }).current ≠ []
   then [{ diff := ((pySplitlines diff).foldl sbhStep
      { chunks := [], current := [], startLine := 1, curStart := 1, found := false }).current,
           startLine := ((pySplitlines diff).foldl sbhStep
      { chunks := [], current := [], startLine := 1, curStart := 1, found := false }).startLine }]
   else [])

/-- `diff.py _split_by_hunk`. -/
def split_by_hunk (diff : Str) : List Chunk :=
  if diff = [] ∨ diff.length ≤ MAX_DIFF_SIZE then [{ diff := diff, startLine := 1 }]
  else if sbhRun diff = [] ∧ diff ≠ [] then [{ diff := diff, startLine := 1 }]
  else sbhRun diff

/-- A hunk record of `_collect_hunks` (`{"lines": …, "diff": …, "start_line": …}`). -/
structure HunkRec where
  lines : List Str
  diff : Str
  startLine : Nat
  deriving DecidableEq

/-- One iteration of the loop in `_collect_hunks` (diff.py lines 123–136):
state is (collected hunks, pending `hunk_lines`, `hunk_start_line`). -/
def collectStep (st : List HunkRec × List Str × Nat) (line : Str) :
    List HunkRec × List Str × Nat :=
  let (hunks, hl, start) := st
  if startsWithL ("@@".toList) line then
    let hunks' :=
      if hl ≠ [] then
        hunks ++ [{ lines := hl, diff := joinNL hl ++ ['\n'], startLine := start }]
      else hunks
    (hunks', [line], extract_start_line line)
  else (hunks, hl ++ [line], start)

/-- `diff.py _collect_hunks`. -/
def collect_hunks (diff : Str) : List HunkRec :=
  let (hunks, hl, start) := (pySplitlines diff).foldl collectStep ([], [], 1)
  if hl ≠ [] then
    hunks ++ [{ lines := hl, diff := joinNL hl ++ ['\n'], startLine := start }]
  else hunks

theorem dropWhileLenLe (p : Char → Bool) (l : Str) : (l.dropWhile p).length ≤ l.length := by
  induction l with
  | nil => simp [List.dropWhile]
  | cons c cs ih =>
    by_cases h : p c
    · simpa [List.dropWhile, h] using Nat.le_succ_of_le ih
    · simp [List.dropWhile, h]

theorem dropLenLe (n : Nat) (l : Str) : (l.drop n).length ≤ l.length := by
  simp only [List.length_drop]; omega

/-- Regex `^\+` followed by `\s*` (anchored at the given position):
consumes the `+` and the maximal whitespace run. -/
def matchPlusSpaces : Str → Option Str
  | [] => none
  | c :: r => if c = '+' then some (r.dropWhile isPySpace) else none

/-- Regex `^\+\s*<kw>\s+(\w+)` anchored at the start of `s` (the search
pattern of `_process_logical_unit_hunk` and `_split_by_srp` with
`kw ∈ {class, def}`).  Returns the captured name and the unconsumed suffix. -/
def matchDeclAt (kw : Str) (s : Str) : Option (Str × Str) :=
  (matchPlusSpaces s).bind fun r1 =>
    if kw.isPrefixOf r1 then
      if (r1.drop kw.length).takeWhile isPySpace ≠ [] then
        if ((r1.drop kw.length).dropWhile isPySpace).takeWhile isWordChar ≠ [] then
          some (((r1.drop kw.length).dropWhile isPySpace).takeWhile isWordChar,
                ((r1.drop kw.length).dropWhile isPySpace).drop
                  (((r1.drop kw.length).dropWhile isPySpace).takeWhile isWordChar).length)
        else none
      else none
    else none

theorem matchPlusSpaces_length {s r : Str} (h : matchPlusSpaces s = some r) :
    r.length < s.length := by
  cases s with
  | nil => simp [matchPlusSpaces] at h
  | cons c cs =>
    by_cases hc : c = '+'
    · simp only [matchPlusSpaces, hc, if_true, Option.some.injEq] at h
      subst h
      exact Nat.lt_succ_of_le (dropWhileLenLe isPySpace cs)
    · simp [matchPlusSpaces, hc] at h

theorem matchDeclAt_length {kw s : Str} {n r : Str} (h : matchDeclAt kw s = some (n, r)) :
    r.length < s.length := by
  unfold matchDeclAt at h
  cases hp : matchPlusSpaces s with
  | none => rw [hp] at h; simp at h
  | some r1 =>
    rw [hp] at h
    simp only [Option.some_bind] at h
    split at h
    · split at h
      · split at h
        · simp only [Option.some.injEq, Prod.mk.injEq] at h
          have hr : r = ((r1.drop kw.length).dropWhile isPySpace).drop
              (((r1.drop kw.length).dropWhile isPySpace).takeWhile isWordChar).length := h.2.symm
          have hlt := matchPlusSpaces_length hp
          calc r.length ≤ ((r1.drop kw.length).dropWhile isPySpace).length := by
                rw [hr]; exact dropLenLe _ _
            _ ≤ (r1.drop kw.length).length := dropWhileLenLe _ _
            _ ≤ r1.length := dropLenLe _ _
            _ < s.length := hlt
        · exact absurd h (by simp)
      · exact absurd h (by simp)
    · exact absurd h (by simp)

/-- `re.findall(r"^\+\s*<kw>\s+(\w+)", s, re.MULTILINE)`: scan left to right,
attempting the anchored match at the string start and after each `'\n'`,
skipping past a match once found (non-overlapping). -/
def findallDecl (kw : Str) : Str → Bool → List Str
  | [], _ => []
  | c :: cs, atLS =>
    if atLS then
      match hm : matchDeclAt kw (c :: cs) with
      | some (name, rest) => name :: findallDecl kw rest false
      | none => findallDecl kw cs (c = '\n')
    else findallDecl kw cs (c = '\n')
termination_by s _ => s.length
decreasing_by
  · exact matchDeclAt_length hm
  · simp
  · simp

/-- State of the multi-unit loop in `_process_logical_unit_hunk`:
semantic chunks, `current_unit`, `current_context`, `unit_start_line`. -/
structure PLUState where
  chunks : List Chunk
  current : Str
  context : Option Str
  unitStart : Nat

/-- One iteration of the loop in `_process_logical_unit_hunk`
(diff.py lines 171–196). -/
def pluStep (hunkStart : Nat) (st : PLUState) (line : Str) : PLUState :=
  let classM := matchDeclAt ("class".toList) line
  let funcM := matchDeclAt ("def".toList) line
  let st1 :=
    if classM.isSome ∨ funcM.isSome then
      let st' :=
        if st.current ≠ [] ∧ st.context.isSome then
          { st with
            chunks := st.chunks ++
              [{ diff := st.current, startLine := st.unitStart, context := st.context }],
            current := [] }
        else st
      let ctx :=
        match classM with
        | some (name, _) => "class ".toList ++ name
        | none =>
          match funcM with
          | some (name, _) => "def ".toList ++ name
          | none => []
      { st' with context := some ctx, unitStart := hunkStart }
    else st
  { st1 with current := st1.current ++ line ++ ['\n'] }

/-- `diff.py _process_logical_unit_hunk`. -/
def process_logical_unit_hunk (hunkDiff : Str) (hunkStart : Nat) : List Chunk :=
  let classMatches := findallDecl ("class".toList) hunkDiff true
  let funcMatches := findallDecl ("def".toList) hunkDiff true
  if classMatches.length + funcMatches.length > 1 then
    let st := (pySplitlines hunkDiff).foldl (pluStep hunkStart)
      { chunks := [], current := [], context := none, unitStart := hunkStart }
    st.chunks ++
      (if st.current ≠ [] then
        [{ diff := st.current, startLine := st.unitStart,
           context := some (st.context.getD ("unknown".toList)) }]
      else [])
  else
    let ctx : Option Str :=
      match classMatches with
      | name :: _ => some ("class ".toList ++ name)
      | [] =>
        match funcMatches with
        | name :: _ => some ("def ".toList ++ name)
        | [] => none
    [{ diff := hunkDiff, startLine := hunkStart,
       context := some (ctx.getD ("hunk".toList)) }]

/-- `diff.py _split_by_logical_unit`. -/
def split_by_logical_unit (diff : Str) : List Chunk :=
  if collect_hunks diff = [] then [{ diff := diff, startLine := 1 }]
  else if (collect_hunks diff).flatMap
      (fun h => process_logical_unit_hunk h.diff h.startLine) = [] then
    [{ diff := diff, startLine := 1 }]
  else (collect_hunks diff).flatMap (fun h => process_logical_unit_hunk h.diff h.startLine)

/-- Regex `^\+\s*"""` or `^\+\s*#` (the `doc_change` test of `_split_by_srp`). -/
def matchDocAt (line : Str) : Bool :=
  match matchPlusSpaces line with
  | some r => startsWithL ("\x22\x22\x22".toList) r ∨ r.head? = some '#'
  | none => false

/-- Regex `^\+\s*def\s+\w+\([^)]*\)` (the `signature_change` test of
`_split_by_srp`): a `def` declaration whose name is immediately followed by
`'('` with a later `')'` on the same line. -/
def matchSigAt (line : Str) : Bool :=
  match matchDeclAt ("def".toList) line with
  | some (_, rest) =>
    match rest with
    | '(' :: r => r.contains ')'
    | _ => false
  | none => false

/-- State of the `_split_by_srp` loop: semantic chunks, `current_chunk`,
`current_context`, `semantic_start_line`, `current_start_line`. -/
structure SRPState where
  chunks : List Chunk
  current : Str
  context : Option Str
  semStart : Nat
  curStart : Nat

/-- One iteration of the loop in `_split_by_srp` (diff.py lines 266–309). -/
def srpStep (st : SRPState) (line : Str) : SRPState :=
  -- if line.startswith("@@"): update current_start_line (and semantic_start_line
  -- while no context is set)
  let st1 :=
    if startsWithL ("@@".toList) line then
      match extractStartLineAux line with
      | some n =>
        if st.context.isNone then { st with curStart := n, semStart := n }
        else { st with curStart := n }
      | none => st
    else st
  -- class / def boundary
  let classM := matchDeclAt ("class".toList) line
  let funcM := matchDeclAt ("def".toList) line
  let st2 :=
    if classM.isSome ∨ funcM.isSome then
      let st' :=
        if st1.current ≠ [] ∧ st1.context.isSome then
          { st1 with
            chunks := st1.chunks ++
              [{ diff := st1.current, startLine := st1.semStart, context := st1.context }],
            current := [] }
        else st1
      let ctx :=
        match classM with
        | some (name, _) => "class ".toList ++ name
        | none =>
          match funcM with
          | some (name, _) => "def ".toList ++ name
          | none => []
      { st' with context := some ctx, semStart := st'.curStart }
    else st1
  -- documentation / signature boundary
  let doc := matchDocAt line
  let sig := matchSigAt line
  let st3 :=
    if (doc ∨ sig) ∧ st2.current ≠ [] then
      let kind := if doc then " (documentation)".toList else " (signature)".toList
      { st2 with
        chunks := st2.chunks ++
          [{ diff := st2.current, startLine := st2.semStart,
             context := some ((st2.context.getD ("unknown".toList)) ++ kind) }],
        current := [], semStart := st2.curStart }
    else st2
  { st3 with current := st3.current ++ line ++ ['\n'] }

/-- The chunk list accumulated by the `_split_by_srp` loop, including the
final-chunk append (diff.py lines 312–317). -/
def srpRun (diff : Str) : List Chunk :=
  ((pySplitlines diff).foldl srpStep
    { chunks := [], current := [], context := none, semStart := 1, curStart := 1 }).chunks ++
  (if ((pySplitlines diff).foldl srpStep
      { chunks := [], current := [], context := none, semStart := 1, curStart := 1 }).current ≠ []
   then [{ diff := ((pySplitlines diff).foldl srpStep
        { chunks := [], current := [], context := none, semStart := 1, curStart := 1 }).current,
           startLine := ((pySplitlines diff).foldl srpStep
        { chunks := [], current := [], context := none, semStart := 1, curStart := 1 }).semStart,
           context := some ((((pySplitlines diff).foldl srpStep
        { chunks := [], current := [], context := none, semStart := 1, curStart := 1 }).context).getD
          ("unknown".toList)) }]
   else [])

/-- `diff.py _split_by_srp`. -/
def split_by_srp (diff : Str) : List Chunk :=
  if srpRun diff = [] ∧ diff ≠ [] then [{ diff := diff, startLine := 1 }] else srpRun diff

/-- `diff.py split_diff_into_chunks` (the dispatcher, including the empty-diff
early return and the level-1 test-pattern special case). -/
def split_diff_into_chunks (diff : Str) (chunkLevel : Int) : List Chunk :=
  if diff = [] then [{ diff := [], startLine := 1 }]
  else if chunkLevel = 1 ∧ containsSub ("@@ -1,10 +1,15 @@".toList) diff ∧
      containsSub ("@@ -20,".toList) diff then
    handle_test_pattern diff
  else if chunkLevel = 0 then split_by_file diff
  else if chunkLevel = 1 then split_by_hunk diff
  else if chunkLevel = 2 then split_by_logical_unit diff
  else if chunkLevel = 3 then split_by_srp diff
  else split_by_hunk diff

/-! ## ai.py — response parsing of `classify_hunks`

Only the group parsing and residual assignment are modelled: the reasoning
extraction (ai.py lines 179–189) and the console summaries (lines 214–235)
do not influence the returned groups.  The OpenAI network call is abstracted:
the response text is an input, and a raised `openai` error is represented by
the caller passing `Except.error` instead of a response. -/

/-- Tail of the regex `GROUP \d+:` after `"GROUP "`: one or more digits
consumed greedily, then a colon.  Returns the suffix after the colon. -/
def matchDigitsColonAux : Str → Option Str
  | [] => none
  | c :: cs => if isDig c then matchDigitsColonAux cs
               else if c = ':' then some cs else none

def matchDigitsColon : Str → Option Str
  | [] => none
  | c :: cs => if isDig c then matchDigitsColonAux cs else none

/-- Regex `GROUP \d+:` with `re.IGNORECASE`, anchored at the start of `s`:
the word GROUP in any letter case, exactly one space, one or more digits and
a colon.  Returns the suffix after the match. -/
def matchGroupTag : Str → Option Str
  | c1 :: c2 :: c3 :: c4 :: c5 :: c6 :: rest =>
    if (c1 = 'G' ∨ c1 = 'g') ∧ (c2 = 'R' ∨ c2 = 'r') ∧ (c3 = 'O' ∨ c3 = 'o') ∧
       (c4 = 'U' ∨ c4 = 'u') ∧ (c5 = 'P' ∨ c5 = 'p') ∧ c6 = ' ' then
      matchDigitsColon rest
    else none
  | _ => none

theorem matchDigitsColonAux_length {s r : Str} (h : matchDigitsColonAux s = some r) :
    r.length < s.length := by
  induction s generalizing r with
  | nil => simp [matchDigitsColonAux] at h
  | cons c cs ih =>
    simp only [matchDigitsColonAux] at h
    split at h
    · exact Nat.lt_succ_of_lt (ih h)
    · split at h
      · simp only [Option.some.injEq] at h; subst h; simp
      · simp at h

theorem matchDigitsColon_length {s r : Str} (h : matchDigitsColon s = some r) :
    r.length < s.length := by
  cases s with
  | nil => simp [matchDigitsColon] at h
  | cons c cs =>
    simp only [matchDigitsColon] at h
    split at h
    · exact Nat.lt_succ_of_lt (matchDigitsColonAux_length h)
    · simp at h

theorem matchGroupTag_length {s r : Str} (h : matchGroupTag s = some r) :
    r.length < s.length := by
  match s, h with
  | c1 :: c2 :: c3 :: c4 :: c5 :: c6 :: rest, h =>
    by_cases hc : (c1 = 'G' ∨ c1 = 'g') ∧ (c2 = 'R' ∨ c2 = 'r') ∧ (c3 = 'O' ∨ c3 = 'o') ∧
        (c4 = 'U' ∨ c4 = 'u') ∧ (c5 = 'P' ∨ c5 = 'p') ∧ c6 = ' '
    · simp only [matchGroupTag, hc, if_true] at h
      have := matchDigitsColon_length h
      simp only [List.length_cons]
      omega
    · simp [matchGroupTag, hc] at h

/-- `re.split(r"GROUP \d+:", result, flags=re.IGNORECASE)`: scan left to
right; each non-overlapping match ends the current section.  The `fuel`
argument only makes the recursion structural (each step consumes at least one
character, so `s.length + 1` is never exhausted); the zero case is
unreachable. -/
def reSplitAux : Nat → Str → Str → List Str
  | 0, s, acc => [acc.reverse ++ s]
  | fuel + 1, s, acc =>
    match matchGroupTag s with
    | some rest => acc.reverse :: reSplitAux fuel rest []
    | none =>
      match s with
      | [] => [acc.reverse]
      | c :: cs => reSplitAux fuel cs (c :: acc)

def reSplitGroupTag (s : Str) : List Str := reSplitAux (s.length + 1) s []

/-- The fuel of `reSplitAux` is irrelevant as long as it exceeds the input
length. -/
theorem reSplitAux_fuel {fuel1 fuel2 : Nat} (s acc : Str)
    (h1 : s.length < fuel1) (h2 : s.length < fuel2) :
    reSplitAux fuel1 s acc = reSplitAux fuel2 s acc := by
  induction fuel1 generalizing fuel2 s acc with
  | zero => omega
  | succ f1 ih =>
    cases fuel2 with
    | zero => omega
    | succ f2 =>
      simp only [reSplitAux]
      cases hm : matchGroupTag s with
      | some rest =>
        have hlt := matchGroupTag_length hm
        simp only [List.cons.injEq, true_and]
        exact ih rest [] (by omega) (by omega)
      | none =>
        cases s with
        | nil => rfl
        | cons c cs =>
          simp only [List.length_cons] at h1 h2
          exact ih cs (c :: acc) (by omega) (by omega)

/-- Regex `\[(.*?)\]` searched in a section: the leftmost `'['` that is
followed by a `']'` with no intervening newline; the capture is the text up
to the nearest such `']'`. -/
def bracketInner : Str → Option Str
  | [] => none
  | c :: cs =>
    if c = ']' ∨ c = '\n' then none
    else (bracketInner cs).map (fun inner => c :: inner)

def bracketTill : Str → Option Str
  | [] => none
  | c :: cs => if c = ']' then some [] else
               if c = '\n' then none else
               (bracketTill cs).map (fun inner => c :: inner)

def firstBracket : Str → Option Str
  | [] => none
  | c :: cs =>
    if c = '[' then
      match bracketTill cs with
      | some inner => some inner
      | none => firstBracket cs
    else firstBracket cs

/-- `re.findall(r"\d+", s)`: the maximal runs of digits, left to right
(`acc` is the reversed run currently being read). -/
def digitRunsAcc : Str → Str → List Str
  | [], acc => if acc = [] then [] else [acc.reverse]
  | c :: cs, acc =>
    if isDig c then digitRunsAcc cs (c :: acc)
    else if acc = [] then digitRunsAcc cs [] else acc.reverse :: digitRunsAcc cs []

def digitRuns (s : Str) : List Str := digitRunsAcc s []

/-- The `hunk_indices` computed for one section (ai.py lines 172–176): the
first bracketed text, its digit runs read as integers, each minus one. -/
def sectionIndices (sec : Str) : Option (List Int) :=
  (firstBracket sec).map fun inner =>
    (digitRuns inner).map fun ds => (digitsVal ds : Int) - 1

/-- All index lists extracted from a classifier response (ai.py lines
166–176): sections created by splitting on `GROUP \d+:`; the part before the
first match is skipped; sections without a bracket contribute nothing. -/
def parsedIndexLists (result : Str) : List (List Int) :=
  if (reSplitGroupTag result).length > 1 then
    (reSplitGroupTag result).tail.filterMap sectionIndices
  else []

/-- Python list indexing `hunks[idx]` for an `int` index: non-negative
indexes from the front, negative from the back, `IndexError` otherwise. -/
def pyGet (hunks : List Chunk) (idx : Int) : Except Unit Chunk :=
  if 0 ≤ idx then
    match hunks.get? idx.toNat with
    | some h => .ok h
    | none => .error ()
  else if (-idx).toNat ≤ hunks.length then
    match hunks.get? (hunks.length - (-idx).toNat) with
    | some h => .ok h
    | none => .error ()
  else .error ()

/-- The group construction for one section (ai.py lines 192–196): indexes
with `idx < len(hunks)` that were not previously claimed are appended (via
`hunks[idx]`, which follows Python semantics including negative indexing and
`IndexError` on an empty list); claimed indexes are recorded. -/
def buildGroup (hunks : List Chunk) :
    List Int → List Chunk → List Int → Except Unit (List Chunk × List Int)
  | [], group, processed => .ok (group, processed)
  | idx :: rest, group, processed =>
    if idx < (hunks.length : Int) ∧ idx ∉ processed then
      match pyGet hunks idx with
      | .ok h => buildGroup hunks rest (group ++ [h]) (processed ++ [idx])
      | .error _ => .error ()
    else buildGroup hunks rest group processed

/-- The section loop of `classify_hunks` (ai.py lines 170–203): thread the
`processed_hunk_indices` set through the sections, appending each non-empty
group. -/
def classifySections (hunks : List Chunk) :
    List Str → List (List Chunk) → List Int → Except Unit (List (List Chunk))
  | [], groups, _ => .ok groups
  | sec :: rest, groups, processed =>
    match sectionIndices sec with
    | none => classifySections hunks rest groups processed
    | some idxs =>
      match buildGroup hunks idxs [] processed with
      | .ok (group, processed') =>
        classifySections hunks rest
          (if group ≠ [] then groups ++ [group] else groups) processed'
      | .error _ => .error ()

/-- The parsing part of `classify_hunks` (ai.py lines 160–203): the list of
groups built from the response text (`hunk_groups` after the section loop,
before the fallback). -/
def classifyParse (hunks : List Chunk) (result : Str) : Except Unit (List (List Chunk)) :=
  if (reSplitGroupTag result).length > 1 then
    classifySections hunks (reSplitGroupTag result).tail [] []
  else .ok []

/-- `classify_hunks` (ai.py lines 160–259), given the response text.  After
parsing: the empty-parse fallback `[hunks]` (line 206); then line 238 rebinds
`processed_hunk_indices` to a fresh empty set, so the "remaining" hunks of
line 242 are all of `hunks` and are appended as one more group whenever
`hunks` is non-empty; finally the `if not hunk_groups` fallback (line 252).
An exception anywhere in the body is re-raised as `OpenAIError` (lines
268–272), modelled by `.error`. -/
def classify_hunks (hunks : List Chunk) (result : Str) : Except Unit (List (List Chunk)) :=
  match classifyParse hunks result with
  | .error _ => .error ()
  | .ok parsed =>
    let groups1 := if parsed = [] ∧ hunks.length > 0 then [hunks] else parsed
    -- line 238: processed_hunk_indices = set()
    let processedReset : List Nat := []
    -- line 242: remaining_hunks = [hunk for i, hunk in enumerate(hunks)
    --                              if i not in processed_hunk_indices]
    let remaining := (hunks.enum.filter (fun p => p.1 ∉ processedReset)).map Prod.snd
    let groups2 := if remaining ≠ [] then groups1 ++ [remaining] else groups1
    .ok (if groups2 = [] then [hunks] else groups2)

/-! ## processor.py — grouping part of `_process_file_hunks` -/

/-- A group entry of `_process_file_hunks`
(`{"hunks": list of hunk dicts, "indices": list of ints}`). -/
structure HunkGroupP where
  hunks : List Chunk
  indices : List Nat
  deriving DecidableEq

/-- The conversion loop of `_process_file_hunks` (processor.py lines 204–221).
`classify_hunks` returns groups whose elements are hunk dictionaries, but the
loop treats every element as an integer index: the chained comparison
`0 <= idx < len(hunks)` on line 213 evaluates `0 <= idx` with `idx` a `dict`,
which raises `TypeError` at the first element of the first non-empty group
(modelled by `.error`).  Groups with no elements build an empty `group` that
is not appended (line 219). -/
def convertLoop (cls : List (List Chunk)) : Except Unit (List HunkGroupP) :=
  match cls with
  | [] => .ok []
  | g :: rest =>
    match g with
    | [] => convertLoop rest
    | _ :: _ => .error ()

/-- The body of the `try` block of `_process_file_hunks` (processor.py lines
198–236): classification, the conversion loop, then the residual group.  When
the conversion loop completes, `processed_indices` is still empty (only empty
groups were seen), so the residual is every hunk index in order. -/
def processorTryBody (hunks : List Chunk) (response : Str) : Except Unit (List HunkGroupP) :=
  match classify_hunks hunks response with
  | .error _ => .error ()
  | .ok cls =>
    match convertLoop cls with
    | .error _ => .error ()
    | .ok gs =>
      let remainingIdx := List.range hunks.length
      .ok (gs ++ (if hunks ≠ [] then [{ hunks := hunks, indices := remainingIdx }] else []))

/-- The grouping part of `_process_file_hunks` (processor.py lines 197–258):
the classifier call either raises (`call = .error`, caught on lines 238–251
and replaced by the single-group fallback) or returns a response text; any
exception inside the `try` block is caught the same way; finally the
`if not hunk_groups` fallback (line 253). -/
def process_file_hunks_grouping (hunks : List Chunk) (call : Except Unit Str) :
    List HunkGroupP :=
  let attempted : Except Unit (List HunkGroupP) :=
    match call with
    | .error _ => .error ()
    | .ok response => processorTryBody hunks response
  let gs :=
    match attempted with
    | .error _ => [{ hunks := hunks, indices := List.range hunks.length }]
    | .ok gs => gs
  if gs = [] then [{ hunks := hunks, indices := List.range hunks.length }] else gs

/-! ## processor.py — `_create_patch_for_group` -/

/-- The header extraction loop of `_create_patch_for_group` (processor.py
lines 57–68): lines starting with one of the four header prefixes are
collected; the scan stops at the first line starting with `"@@"`; other lines
are skipped. -/
def extractHeaderLines : List Str → List Str
  | [] => []
  | l :: ls =>
    if startsWithL ("diff --git".toList) l ∨ startsWithL ("index ".toList) l ∨
       startsWithL ("--- ".toList) l ∨ startsWithL ("+++ ".toList) l then
      l :: extractHeaderLines ls
    else if startsWithL ("@@".toList) l then []
    else extractHeaderLines ls

/-- `processor.py _create_patch_for_group`: empty for an empty group or a
missing header; otherwise the newline-joined header, the hunks' stripped
texts joined by newlines in the order given by the caller, and one final
newline. -/
def create_patch_for_group (fullDiff : Str) (groupHunks : List Chunk) : Str :=
  if groupHunks = [] then []
  else if joinNL (extractHeaderLines (pySplitlines fullDiff)) = [] then []
  else
    joinNL (extractHeaderLines (pySplitlines fullDiff)) ++
    (if joinNL (groupHunks.map (fun h => pyStrip h.diff)) ≠ [] then
      '\n' :: joinNL (groupHunks.map (fun h => pyStrip h.diff))
    else []) ++ ['\n']

/-- A commit-group entry built by `_process_file_hunks` (processor.py lines
304–312; the fields not used by any claim are omitted). -/
structure CommitDataE where
  message : Str
  patch : Str
  numHunks : Nat
  deriving DecidableEq

/-- The message/patch loop of `_process_file_hunks` (processor.py lines
267–314): for each group a message is generated (`gen` is the external
message call; an exception yields the placeholder message, lines 285–292) and
the group patch is synthesized; a group whose patch is empty is skipped
(lines 297–302). -/
def buildCommitData (gen : Str → Except Unit Str) (fullDiff : Str)
    (hunkGroups : List HunkGroupP) : List CommitDataE :=
  hunkGroups.filterMap fun g =>
    let msg :=
      match gen (joinNL (g.hunks.map Chunk.diff)) with
      | .ok m => m
      | .error _ => "[Chore] Commit changes (AI Error)".toList
    let patch := create_patch_for_group fullDiff g.hunks
    if patch = [] then none
    else some { message := msg, patch := patch, numHunks := g.hunks.length }

/-! ## git_repository.py / commit_executor.py

`run_git_command` (utils/git.py) never raises: every failure is returned in
the result dictionary's `error` field.  Consequently `repo._run_command(...)`
calls never raise `GitRepositoryError`; only `stage_files`, `commit` and the
explicit `raise` sites in `apply_commits` do.  The `except GitRepositoryError`
handlers around the bare `_run_command` index resets (commit_executor.py
lines 306–310, 342–346, 396–402) are therefore dead code, and a failing reset
is silently ignored. -/

/-- The fields of a `GitResult` that `GitRepository.commit` reads. -/
structure GitResultM where
  stdout : Str
  error : Option Str
  deriving DecidableEq

/-- `GitRepository.commit` (git_repository.py lines 314–360), as a function of
the `git commit` result and the `git rev-parse --short HEAD` result.
`.ok none` is the "nothing to commit" return; `.error` models the raised
`GitRepositoryError`. -/
def GitRepository_commit (commitRes hashRes : GitResultM) : Except Str (Option Str) :=
  match commitRes.error with
  | some e =>
    if containsSub ("nothing to commit".toList) e then .ok none
    else if containsSub ("no changes added to commit".toList) e then .ok none
    else .error ("Failed to create commit: ".toList ++ e)
  | none =>
    match hashRes.error with
    | some _ => .ok (some ("Success (hash unavailable)".toList))
    | none => .ok (some hashRes.stdout)

/-- The per-group data read by `apply_commits` (commit_executor.py lines
62–73). -/
structure GroupData where
  message : Str
  patch : Option Str
  isBinary : Bool
  status : Str
  totalHunksInFile : Nat
  errFlag : Option Str
  deriving DecidableEq

/-- The external results consumed while processing one group: the staging
error (`stage_files` raises when set), the `git apply` result error field,
and the `git commit` / `git rev-parse` results. -/
structure GroupEnv where
  stageErr : Option Str
  applyErr : Option Str
  commitRes : GitResultM
  hashRes : GitResultM
  deriving DecidableEq

/-- Outcome recorded for one group by `apply_commits`. -/
inductive GroupOutcome
  | committed (hash : Str)
  | skipped (reason : Str)
  | failed (reason : Str)
  deriving DecidableEq

/-- The message validation of commit_executor.py lines 79–84. -/
def validMsg (gd : GroupData) : Bool :=
  ¬ (gd.message = [] ∨ containsSub ("(AI Error)".toList) gd.message ∨
     containsSub ("(System Error)".toList) gd.message ∨ gd.errFlag.isSome)

/-- The whole-file test of commit_executor.py line 128. -/
def wholeFileClass (gd : GroupData) : Bool :=
  gd.isBinary ∨ startsWithL ("D".toList) gd.status ∨ gd.status = "??".toList ∨
  gd.totalHunksInFile = 1

/-- The recoverable `git apply` error test of commit_executor.py lines
202–206. -/
def applyRecoverable (e : Str) : Bool :=
  containsSub ("patch does not apply".toList) e ∨
  containsSub ("applied with offsets".toList) e ∨
  containsSub ("already applied".toList) e

/-- The commit attempt and outcome recording (commit_executor.py lines
242–402) after staging succeeded: a raised commit error is a failure that
aborts the file (line 274); a returned hash is a committed group; `None` is
recorded as the "Nothing to Commit" skip; an empty hash string falls into the
generic "Commit Skipped" case.  The post-commit / post-skip index resets use
`_run_command`, which cannot raise, so they never alter control flow.
Returns (outcome, abort). -/
def attemptCommit (env : GroupEnv) : GroupOutcome × Bool :=
  match GitRepository_commit env.commitRes env.hashRes with
  | .error e => (.failed ("Git Error: ".toList ++ e), true)
  | .ok (some h) =>
    if h ≠ [] then (.committed h, false)
    else (.skipped ("Commit Skipped".toList), false)
  | .ok none => (.skipped ("Nothing to Commit".toList), false)

/-- Processing of a single group by `apply_commits` (commit_executor.py lines
62–402).  State: `needs_initial_reset`.  Returns (outcome, new state, abort
flag); `abort` is the `break` that stops the remaining groups of the file. -/
def applyStep (needsReset : Bool) (gd : GroupData) (env : GroupEnv) :
    GroupOutcome × Bool × Bool :=
  if ¬ validMsg gd then
    (.skipped (match gd.errFlag with
               | some e => e
               | none => "Invalid Msg".toList), needsReset, false)
  else if wholeFileClass gd then
    if needsReset then
      match env.stageErr with
      | some e =>
        (.failed ("Git Error: Failed to stage files: ".toList ++ e), needsReset, true)
      | none =>
        let (out, abort) := attemptCommit env
        (out, false, abort)
    else
      let (out, abort) := attemptCommit env
      (out, needsReset, abort)
  else
    match gd.patch with
    | none => (.failed ("Failed (Patch content missing)".toList), needsReset, false)
    | some p =>
      if p = [] then (.failed ("Failed (Patch content missing)".toList), needsReset, false)
      else
        -- initial scoped reset (result ignored), then git apply
        match env.applyErr with
        | some e =>
          if applyRecoverable e then
            let (out, abort) := attemptCommit env
            (out, false, abort)
          else (.failed ("Git Error: Failed to apply patch: ".toList ++ e), false, true)
        | none =>
          let (out, abort) := attemptCommit env
          (out, false, abort)

/-- The group loop of `apply_commits` for one file: outcomes in order, with
`break` cutting off the remaining groups. -/
def applyCommitsFile (needsReset : Bool) : List (GroupData × GroupEnv) → List GroupOutcome
  | [] => []
  | (gd, env) :: rest =>
    let (out, st, abort) := applyStep needsReset gd env
    out :: (if abort then [] else applyCommitsFile st rest)

/-! ## Helper lemmas about the grouping pipeline -/

theorem buildGroup_nil_ok {idxs : List Int} {g g' : List Chunk} {p p' : List Int}
    (h : buildGroup [] idxs g p = .ok (g', p')) : g' = g := by
  induction idxs generalizing g p with
  | nil => simp only [buildGroup, Except.ok.injEq, Prod.mk.injEq] at h; exact h.1.symm
  | cons idx rest ih =>
    simp only [buildGroup] at h
    split at h
    · rename_i hcond
      have hneg : ¬ (0 ≤ idx) := by
        intro hge
        have : idx < (([] : List Chunk).length : Int) := hcond.1
        simp at this
        omega
      have : pyGet [] idx = .error () := by
        unfold pyGet
        rw [if_neg hneg]
        have h2 : ¬ ((-idx).toNat ≤ ([] : List Chunk).length) := by
          simp only [List.length_nil, Nat.le_zero]
          intro h0
          have : 0 < -idx := by omega
          omega
        rw [if_neg h2]
      rw [this] at h
      exact absurd h (by simp)
    · exact ih h

theorem classifySections_nil_ok {secs : List Str} {groups gs : List (List Chunk)}
    {p : List Int} (h : classifySections [] secs groups p = .ok gs) : gs = groups := by
  induction secs generalizing groups p with
  | nil => simp only [classifySections, Except.ok.injEq] at h; exact h.symm
  | cons sec rest ih =>
    simp only [classifySections] at h
    split at h
    · exact ih h
    · split at h
      · rename_i idxs _ group processed hb
        have hg : group = [] := buildGroup_nil_ok hb
        subst hg
        simpa using ih h
      · exact absurd h (by simp)

theorem classifyParse_nil_ok {r : Str} {parsed : List (List Chunk)}
    (h : classifyParse [] r = .ok parsed) : parsed = [] := by
  unfold classifyParse at h
  split at h
  · exact classifySections_nil_ok h
  · simp only [Except.ok.injEq] at h; exact h.symm

theorem convertLoop_error_of_mem {cls : List (List Chunk)} {g : List Chunk}
    (hg : g ∈ cls) (hne : g ≠ []) : convertLoop cls = .error () := by
  induction cls with
  | nil => cases hg
  | cons g0 rest ih =>
    cases hg with
    | head =>
      cases g with
      | nil => exact absurd rfl hne
      | cons a as => simp [convertLoop]
    | tail _ hmem =>
      cases g0 with
      | nil => simpa [convertLoop] using ih hmem
      | cons a as => simp [convertLoop]

theorem classify_hunks_residual {hunks : List Chunk} {r : Str} {cls : List (List Chunk)}
    (hne : hunks ≠ []) (h : classify_hunks hunks r = .ok cls) : hunks ∈ cls := by
  unfold classify_hunks at h
  cases hp : classifyParse hunks r with
  | error e => rw [hp] at h; exact absurd h (by simp)
  | ok parsed =>
    rw [hp] at h
    simp only at h
    have hrem : (hunks.enum.filter (fun p => p.1 ∉ ([] : List Nat))).map Prod.snd = hunks := by
      rw [List.filter_eq_self.mpr]
      · exact List.enum_map_snd hunks
      · intro a _; simp
    rw [hrem] at h
    rw [if_pos hne] at h
    have hgr2 : (if parsed = [] ∧ hunks.length > 0 then [hunks] else parsed) ++ [hunks] ≠ [] := by
      simp
    rw [if_neg hgr2] at h
    simp only [Except.ok.injEq] at h
    rw [← h]
    exact List.mem_append_right _ (by simp)

/-- Master lemma: `_process_file_hunks` always ends up with exactly one
group containing every hunk in original order, for every classifier call
outcome.  When the classifier raises this is the `except` fallback; when it
returns, `classify_hunks` hands back lists of hunk dictionaries whose
residual group (always appended, ai.py line 249) is non-empty, so the index
conversion loop raises `TypeError` at `0 <= idx` (processor.py line 213) and
the `except Exception` fallback fires. -/
theorem process_file_hunks_grouping_eq (hunks : List Chunk) (call : Except Unit Str) :
    process_file_hunks_grouping hunks call =
      [{ hunks := hunks, indices := List.range hunks.length }] := by
  unfold process_file_hunks_grouping
  cases call with
  | error e => simp
  | ok r =>
    simp only
    cases hc : classify_hunks hunks r with
    | error e => simp [processorTryBody, hc]
    | ok cls =>
      cases hunks with
      | nil =>
        have hparsed : classifyParse [] r = .ok [] ∨ (∃ e, classifyParse [] r = .error e) := by
          cases hp : classifyParse [] r with
          | error e => exact Or.inr ⟨e, rfl⟩
          | ok parsed => exact Or.inl (by rw [classifyParse_nil_ok hp])
        have hcls : cls = [[]] := by
          unfold classify_hunks at hc
          rcases hparsed with hp | ⟨e, hp⟩
          · rw [hp] at hc
            simpa using hc.symm
          · rw [hp] at hc
            exact absurd hc (by simp)
        subst hcls
        simp [processorTryBody, hc, convertLoop]
      | cons h0 t =>
        have hmem : (h0 :: t) ∈ cls := classify_hunks_residual (by simp) hc
        have hconv : convertLoop cls = .error () :=
          convertLoop_error_of_mem hmem (by simp)
        simp [processorTryBody, hc, hconv]

/-! ## Claim theorems: grouping (C2, C3, C7) -/

/-- Sample hunk chunks used by concrete witnesses and counterexamples. -/
def ckA : Chunk := { diff := "@@ -1,2 +1,2 @@\n-a\n+b\n".toList, startLine := 1 }

def ckB : Chunk := { diff := "@@ -5,2 +5,2 @@\n-c\n+d\n".toList, startLine := 5 }

/-- C2: for every classifier response text (including a raised call, empty,
garbage, or partially valid responses) and every list of hunks, the `indices`
fields of the groups produced by `_process_file_hunks` after residual
assignment, concatenated, are exactly `0, 1, …, N-1`: every hunk index
appears in exactly one group, with no duplicates and no omissions. -/
theorem claim_C2_grouping_partition (hunks : List Chunk) (call : Except Unit Str) :
    ((process_file_hunks_grouping hunks call).map HunkGroupP.indices).flatten =
      List.range hunks.length := by
  rw [process_file_hunks_grouping_eq]
  simp

/-- C3: when the classifier call raises, or its response has zero parseable
`GROUP:` sections, the grouping of `_process_file_hunks` yields exactly one
group holding all `N` hunks in original order, and the result is
indistinguishable from the grouping obtained for any other classifier
outcome. -/
theorem claim_C3_degradation (hunks : List Chunk) (call : Except Unit Str)
    (hne : hunks ≠ [])
    (hfail : call = .error () ∨ ∃ r, call = .ok r ∧ classifyParse hunks r = .ok []) :
    process_file_hunks_grouping hunks call =
      [{ hunks := hunks, indices := List.range hunks.length }] ∧
    ∀ other : Except Unit Str,
      process_file_hunks_grouping hunks call = process_file_hunks_grouping hunks other := by
  refine ⟨process_file_hunks_grouping_eq hunks call, fun other => ?_⟩
  rw [process_file_hunks_grouping_eq, process_file_hunks_grouping_eq]

/-- Witness for C3 at a concrete input: two hunks and a raised classifier
call. -/
theorem claim_C3_degradation_witness :
    process_file_hunks_grouping [ckA, ckB] (.error ()) =
      [{ hunks := [ckA, ckB], indices := [0, 1] }] := by
  have h := (claim_C3_degradation [ckA, ckB] (.error ()) (by decide) (Or.inl rfl)).1
  simpa [List.range_succ] using h

/-- C7 counterexample: the response `"GROUP: [1]"` is one line of the form
`GROUP: [<comma-separated integers>]` (no internal whitespace even needed),
yet the parser extracts no group from it — `re.split(r"GROUP \d+:", …)`
requires a group number between `GROUP` and the colon — and `classify_hunks`
falls back to the single group plus the residual group instead of producing
the group `[0]`. -/
theorem claim_C7_counterexample :
    parsedIndexLists ("GROUP: [1]".toList) = [] ∧
    parsedIndexLists ("GROUP: [1]".toList) ≠ [[(0 : Int)]] ∧
    classify_hunks [ckA, ckB] ("GROUP: [1]".toList) = .ok [[ckA, ckB], [ckA, ckB]] := by
  refine ⟨by decide, by decide, by decide⟩

/-! ## Claim theorems: patch synthesis (C5, C6) -/

/-- The full diff used by the patch-synthesis counterexamples. -/
def fdEx : Str :=
  "diff --git a/f b/f\n--- a/f\n+++ b/f\n@@ -1,2 +1,2 @@\n-a\n+b\n@@ -5,2 +5,2 @@\n-c\n+d\n".toList

/-- C5 counterexample: called with the subset `[ckB, ckA]` (reversed caller
order), `_create_patch_for_group` emits ckB's text before ckA's — the
caller-supplied order — and not the hunks' original relative order
(ckA before ckB) that the claim asserts. -/
theorem claim_C5_counterexample :
    create_patch_for_group fdEx [ckB, ckA] =
      ("diff --git a/f b/f\n--- a/f\n+++ b/f\n" ++
       "@@ -5,2 +5,2 @@\n-c\n+d\n@@ -1,2 +1,2 @@\n-a\n+b\n").toList ∧
    create_patch_for_group fdEx [ckB, ckA] ≠
      ("diff --git a/f b/f\n--- a/f\n+++ b/f\n" ++
       "@@ -1,2 +1,2 @@\n-a\n+b\n@@ -5,2 +5,2 @@\n-c\n+d\n").toList := by
  exact ⟨by decide, by decide⟩

/-- C5 amended: for a non-empty subset with an extractable header and a
non-empty body, the synthesized document is the header, then the selected
hunks' stored texts stripped of surrounding whitespace, joined by single
newlines in exactly the caller-supplied order, then a final newline. -/
theorem claim_C5_amended (fullDiff : Str) (g : List Chunk)
    (hg : g ≠ [])
    (hh : joinNL (extractHeaderLines (pySplitlines fullDiff)) ≠ [])
    (hb : joinNL (g.map (fun h => pyStrip h.diff)) ≠ []) :
    create_patch_for_group fullDiff g =
      joinNL (extractHeaderLines (pySplitlines fullDiff)) ++
      '\n' :: joinNL (g.map (fun h => pyStrip h.diff)) ++ ['\n'] := by
  unfold create_patch_for_group
  rw [if_neg hg, if_neg hh, if_pos hb]

/-- Witness for C5 amended at the concrete reversed-order call. -/
theorem claim_C5_amended_witness :
    create_patch_for_group fdEx [ckB, ckA] =
      joinNL (extractHeaderLines (pySplitlines fdEx)) ++
      '\n' :: joinNL ([ckB, ckA].map (fun h => pyStrip h.diff)) ++ ['\n'] :=
  claim_C5_amended fdEx [ckB, ckA] (by decide) (by decide) (by decide)

/-- Lines produced by `pySplitlines` contain no line-break characters. -/
theorem pySplitlines_no_break {s : Str} {l : Str} (hl : l ∈ pySplitlines s)
    {c : Char} (hc : c ∈ l) : isPyLineBreak c = false := by
  induction s using pySplitlines.induct generalizing l with
  | case1 => simp [pySplitlines] at hl
  | case2 rest ih =>
    rw [show pySplitlines ('\r' :: '\n' :: rest) = [] :: pySplitlines rest from rfl] at hl
    rcases List.mem_cons.mp hl with hl | hl
    · subst hl; cases hc
    · exact ih hl hc
  | case3 c0 rest hne hbrk ih =>
    rw [pySplitlines] at hl
    · rw [if_pos hbrk] at hl
      rcases List.mem_cons.mp hl with hl | hl
      · subst hl; cases hc
      · exact ih hl hc
    · exact hne
  | case4 c0 rest hne hbrk heq ih =>
    rw [pySplitlines] at hl
    · rw [if_neg hbrk, heq] at hl
      have hl' : l = [c0] := by simpa using hl
      subst hl'
      have hc' : c = c0 := by simpa using hc
      subst hc'
      simpa using hbrk
    · exact hne
  | case5 c0 rest hne hbrk l0 ls heq ih =>
    rw [pySplitlines] at hl
    · rw [if_neg hbrk, heq] at hl
      rcases List.mem_cons.mp hl with hl | hl
      · subst hl
        rcases List.mem_cons.mp hc with hc | hc
        · subst hc; simpa using hbrk
        · exact ih (by rw [heq]; exact List.mem_cons_self l0 ls) hc
      · exact ih (by rw [heq]; exact List.mem_cons_of_mem l0 hl) hc
    · exact hne

/-- Header lines extracted by `_create_patch_for_group` come from the diff's
lines. -/
theorem extractHeaderLines_subset {lines : List Str} {l : Str}
    (h : l ∈ extractHeaderLines lines) : l ∈ lines := by
  induction lines with
  | nil => simpa [extractHeaderLines] using h
  | cons l0 ls ih =>
    simp only [extractHeaderLines] at h
    split at h
    · rcases List.mem_cons.mp h with h | h
      · rw [h]; exact List.mem_cons_self l0 ls
      · exact List.mem_cons_of_mem l0 (ih h)
    · split at h
      · cases h
      · exact List.mem_cons_of_mem l0 (ih h)

/-- Extracted header lines are non-empty (each starts with a non-empty
prefix). -/
theorem extractHeaderLines_ne_nil {lines : List Str} {l : Str}
    (h : l ∈ extractHeaderLines lines) : l ≠ [] := by
  intro hnil
  subst hnil
  induction lines with
  | nil => simp [extractHeaderLines] at h
  | cons l0 ls ih =>
    simp only [extractHeaderLines] at h
    split at h
    · rename_i hcond
      rcases List.mem_cons.mp h with h | h
      · rw [← h] at hcond
        revert hcond
        decide
      · exact ih h
    · split at h
      · cases h
      · exact ih h

/-- `joinNL` of a list whose last element is non-empty ends with the last
element's last character. -/
theorem joinNL_getLast? {L : List Str} {last : Str} (hL : L.getLast? = some last)
    (hne : last ≠ []) : (joinNL L).getLast? = last.getLast? := by
  induction L with
  | nil => cases hL
  | cons l0 ls ih =>
    cases ls with
    | nil =>
      simp only [List.getLast?_singleton, Option.some.injEq] at hL
      subst hL
      rfl
    | cons l1 ls' =>
      have hL' : (l1 :: ls').getLast? = some last := by
        rwa [List.getLast?_cons_cons] at hL
      have hrec := ih hL'
      have hlast : ∃ a, last.getLast? = some a := by
        cases last with
        | nil => exact absurd rfl hne
        | cons x xs => exact ⟨(x :: xs).getLast (by simp), List.getLast?_eq_getLast _ _⟩
      obtain ⟨a, ha⟩ := hlast
      have hjoin_ne : joinNL (l1 :: ls') ≠ [] := by
        intro h0
        rw [h0, ha] at hrec
        simp at hrec
      rw [show joinNL (l0 :: l1 :: ls') = l0 ++ '\n' :: joinNL (l1 :: ls') from rfl]
      rw [List.getLast?_append_of_ne_nil l0 (by simp)]
      rw [show ('\n' :: joinNL (l1 :: ls')) = ['\n'] ++ joinNL (l1 :: ls') from rfl]
      rw [List.getLast?_append_of_ne_nil ['\n'] hjoin_ne]
      exact hrec
/-- The head of `dropWhile p` does not satisfy `p`. -/
theorem head?_dropWhile_not {p : Char → Bool} {L : Str} {c : Char}
    (h : (L.dropWhile p).head? = some c) : p c = false := by
  induction L with
  | nil => simp [List.dropWhile] at h
  | cons a as ih =>
    by_cases hp : p a = true
    · simp only [List.dropWhile, hp, if_true] at h
      exact ih h
    · simp only [List.dropWhile, hp, if_false] at h
      simp only [List.head?_cons, Option.some.injEq] at h
      rw [← h]
      simpa using hp

/-- The last character of a stripped string is not whitespace. -/
theorem pyStrip_getLast?_not_space {s : Str} {c : Char}
    (h : (pyStrip s).getLast? = some c) : isPySpace c = false := by
  unfold pyStrip at h
  rw [List.getLast?_reverse] at h
  exact head?_dropWhile_not h

/-- "Ends with exactly one trailing newline": the last character is `'\n'`
and the character before it (if any) is not. -/
def endsWithExactlyOneNL (s : Str) : Prop :=
  s.getLast? = some '\n' ∧ s.dropLast.getLast? ≠ some '\n'

instance (s : Str) : Decidable (endsWithExactlyOneNL s) := by
  unfold endsWithExactlyOneNL; infer_instance

/-- The full diff used by the C6 counterexample. -/
def fdEx6 : Str := "diff --git a/f b/f\n@@ -1 +1 @@\n+x\n".toList

/-- First hunk of the C6 counterexample. -/
def ck6 : Chunk := { diff := "@@ -1 +1 @@\n+x\n".toList, startLine := 1 }

/-- Whitespace-only second hunk of the C6 counterexample. -/
def ckWS : Chunk := { diff := " \n".toList, startLine := 1 }

/-- C6 counterexample: a group whose last hunk text strips to the empty
string produces a non-empty patch ending in TWO newline characters, violating
"ends with exactly one trailing newline". -/
theorem claim_C6_counterexample :
    create_patch_for_group fdEx6 [ck6, ckWS] ≠ [] ∧
    create_patch_for_group fdEx6 [ck6, ckWS] =
      "diff --git a/f b/f\n@@ -1 +1 @@\n+x\n\n".toList ∧
    ¬ endsWithExactlyOneNL (create_patch_for_group fdEx6 [ck6, ckWS]) := by
  refine ⟨by decide, by decide, by decide⟩

/-- C6 amended: an empty hunk subset yields the empty document; a non-empty
output ends with exactly one trailing newline provided the last selected
hunk's stripped text is non-empty (the counterexample shows the proviso is
needed); and the caller `_process_file_hunks` records no commit entry for a
group whose synthesized patch is empty — every recorded entry has a non-empty
patch. -/
theorem claim_C6_amended :
    (∀ fullDiff : Str, create_patch_for_group fullDiff [] = []) ∧
    (∀ (fullDiff : Str) (g : List Chunk) (hl : Chunk),
      g.getLast? = some hl → pyStrip hl.diff ≠ [] →
      create_patch_for_group fullDiff g ≠ [] →
      endsWithExactlyOneNL (create_patch_for_group fullDiff g)) ∧
    (∀ (fullDiff : Str) (g : List Chunk),
      g ≠ [] → joinNL (g.map (fun h => pyStrip h.diff)) = [] →
      create_patch_for_group fullDiff g ≠ [] →
      endsWithExactlyOneNL (create_patch_for_group fullDiff g)) ∧
    (∀ (gen : Str → Except Unit Str) (fullDiff : Str) (groups : List HunkGroupP)
      (e : CommitDataE), e ∈ buildCommitData gen fullDiff groups → e.patch ≠ []) := by
  refine ⟨fun fullDiff => by simp [create_patch_for_group], ?_, ?_, ?_⟩
  · intro fd g hl hlast hstrip hne
    have hg : g ≠ [] := by
      intro h0; rw [h0] at hlast; cases hlast
    by_cases hh : joinNL (extractHeaderLines (pySplitlines fd)) = []
    · exact absurd (by unfold create_patch_for_group; rw [if_neg hg, if_pos hh]) hne
    · have hB : (g.map (fun h => pyStrip h.diff)).getLast? = some (pyStrip hl.diff) := by
        rw [List.getLast?_map, hlast, Option.map_some']
      have hBlast : (joinNL (g.map (fun h => pyStrip h.diff))).getLast? =
          (pyStrip hl.diff).getLast? := joinNL_getLast? hB hstrip
      obtain ⟨c, hc⟩ : ∃ c, (pyStrip hl.diff).getLast? = some c := by
        cases hpy : pyStrip hl.diff with
        | nil => exact absurd hpy hstrip
        | cons x xs => exact ⟨(x :: xs).getLast (by simp), List.getLast?_eq_getLast _ _⟩
      have hcnl : c ≠ '\n' := by
        intro h0
        have := pyStrip_getLast?_not_space hc
        rw [h0] at this
        simp [isPySpace] at this
      have hBne : joinNL (g.map (fun h => pyStrip h.diff)) ≠ [] := by
        intro h0
        rw [h0, hc] at hBlast
        simp at hBlast
      unfold create_patch_for_group
      rw [if_neg hg, if_neg hh, if_pos hBne]
      constructor
      · rw [List.getLast?_append_of_ne_nil _ (by simp)]
        rfl
      · rw [List.dropLast_concat]
        rw [List.getLast?_append_of_ne_nil _ (by simp)]
        rw [show ('\n' :: joinNL (g.map (fun h => pyStrip h.diff))) =
          ['\n'] ++ joinNL (g.map (fun h => pyStrip h.diff)) from rfl]
        rw [List.getLast?_append_of_ne_nil _ hBne, hBlast, hc]
        simp [hcnl]
  · intro fd g hg hb0 hne
    by_cases hh : joinNL (extractHeaderLines (pySplitlines fd)) = []
    · exact absurd (by unfold create_patch_for_group; rw [if_neg hg, if_pos hh]) hne
    · unfold create_patch_for_group
      rw [if_neg hg, if_neg hh, if_neg (by simp [hb0]), List.append_nil]
      constructor
      · rw [List.getLast?_append_of_ne_nil _ (by simp)]
        rfl
      · rw [List.dropLast_concat]
        have hHLne : extractHeaderLines (pySplitlines fd) ≠ [] := by
          intro h0; rw [h0] at hh; exact hh rfl
        obtain ⟨l0, hl0⟩ : ∃ l0, (extractHeaderLines (pySplitlines fd)).getLast? = some l0 := by
          cases hE : extractHeaderLines (pySplitlines fd) with
          | nil => exact absurd hE hHLne
          | cons x xs => exact ⟨(x :: xs).getLast (by simp), List.getLast?_eq_getLast _ _⟩
        have hl0mem : l0 ∈ extractHeaderLines (pySplitlines fd) :=
          List.mem_of_mem_getLast? hl0
        have hl0ne : l0 ≠ [] := extractHeaderLines_ne_nil hl0mem
        have hH : (joinNL (extractHeaderLines (pySplitlines fd))).getLast? = l0.getLast? :=
          joinNL_getLast? hl0 hl0ne
        obtain ⟨c, hc⟩ : ∃ c, l0.getLast? = some c := by
          cases hE : l0 with
          | nil => exact absurd hE hl0ne
          | cons x xs => exact ⟨(x :: xs).getLast (by simp), List.getLast?_eq_getLast _ _⟩
        have hcl : c ∈ l0 := List.mem_of_mem_getLast? hc
        have hnb : isPyLineBreak c = false :=
          pySplitlines_no_break (extractHeaderLines_subset hl0mem) hcl
        have hcnl : c ≠ '\n' := by
          intro h0
          rw [h0] at hnb
          simp [isPyLineBreak] at hnb
        rw [hH, hc]
        simp [hcnl]
  · intro gen fd groups e he
    unfold buildCommitData at he
    rw [List.mem_filterMap] at he
    obtain ⟨g, _, hfe⟩ := he
    by_cases hp : create_patch_for_group fd g.hunks = []
    · simp [hp] at hfe
    · simp only [hp, if_false, Option.some.injEq] at hfe
      rw [← hfe]
      exact hp

/-- Witness for C6 amended: concrete evaluations of each conjunct. -/
theorem claim_C6_amended_witness :
    create_patch_for_group fdEx6 [] = [] ∧
    endsWithExactlyOneNL (create_patch_for_group fdEx6 [ck6]) ∧
    (∀ e : CommitDataE,
      e ∈ buildCommitData (fun _ => .error ()) fdEx6 [{ hunks := [ck6], indices := [0] }] →
      e.patch ≠ []) :=
  ⟨claim_C6_amended.1 fdEx6,
   claim_C6_amended.2.1 fdEx6 [ck6] ck6 (by decide) (by decide) (by decide),
   fun e he => claim_C6_amended.2.2.2 (fun _ => .error ()) fdEx6 _ e he⟩

/-! ## Claim theorems: commit outcomes (C8) -/

/-- A valid whole-file group (binary file) used in C8 instances. -/
def gdWhole : GroupData :=
  { message := "[Fix] adjust".toList, patch := none, isBinary := true,
    status := "M".toList, totalHunksInFile := 1, errFlag := none }

/-- A commit result whose error is git's other empty-index message. -/
def envNoChanges : GroupEnv :=
  { stageErr := none
    applyErr := none
    commitRes :=
      { stdout := []
        error := some ("no changes added to commit (use git add)".toList) }
    hashRes := { stdout := "abc1234".toList, error := none } }

/-- C8 counterexample: the commit result `"no changes added to commit (use
git add)"` does not contain `"nothing to commit"`, so by the claim this other
non-zero outcome should be a failure — but `GitRepository.commit` returns
`None` for it and `apply_commits` records the group as the "Nothing to
Commit" skip and continues with the next group. -/
theorem claim_C8_counterexample :
    containsSub ("nothing to commit".toList)
      ("no changes added to commit (use git add)".toList) = false ∧
    GitRepository_commit envNoChanges.commitRes envNoChanges.hashRes = .ok none ∧
    applyCommitsFile true [(gdWhole, envNoChanges), (gdWhole, envNoChanges)] =
      [.skipped ("Nothing to Commit".toList), .skipped ("Nothing to Commit".toList)] := by
  refine ⟨by decide, by decide, by decide⟩

/-- C8 amended: when the commit result's error contains `"nothing to
commit"` or `"no changes added to commit"`, no exception is raised, the group
is recorded as the "Nothing to Commit" skip, and the file's remaining groups
are still processed; any other non-zero commit outcome raises, is recorded as
a failure, and aborts the file's remaining groups.  (Hypotheses: the group's
message is valid and the staging step succeeded — whole-file staging with no
stage error, or a patch-based group with a patch and at most recoverable
apply warnings.) -/
theorem claim_C8_amended (nr : Bool) (gd : GroupData) (env : GroupEnv)
    (rest : List (GroupData × GroupEnv)) (e : Str)
    (hv : validMsg gd = true)
    (hstage : (wholeFileClass gd = true ∧ env.stageErr = none) ∨
      (wholeFileClass gd = false ∧ ∃ p, gd.patch = some p ∧ p ≠ [] ∧
        (∀ ae, env.applyErr = some ae → applyRecoverable ae = true)))
    (hcommit : env.commitRes.error = some e) :
    ((containsSub ("nothing to commit".toList) e = true ∨
      containsSub ("no changes added to commit".toList) e = true) →
      applyCommitsFile nr ((gd, env) :: rest) =
        .skipped ("Nothing to Commit".toList) :: applyCommitsFile false rest) ∧
    ((containsSub ("nothing to commit".toList) e = false ∧
      containsSub ("no changes added to commit".toList) e = false) →
      applyCommitsFile nr ((gd, env) :: rest) =
        [.failed ("Git Error: Failed to create commit: ".toList ++ e)]) := by
  have hstep : ∀ out abort, attemptCommit env = (out, abort) →
      applyStep nr gd env = (out, false, abort) := by
    intro out abort hatt
    unfold applyStep
    rw [if_neg (by simp [hv])]
    rcases hstage with ⟨hw, hs⟩ | ⟨hw, p, hp, hpne, hae⟩
    · rw [if_pos hw]
      cases nr with
      | true => rw [hs]; simp [hatt]
      | false => simp [hatt]
    · rw [if_neg (show ¬ (wholeFileClass gd = true) by simp [hw])]
      simp only [hp]
      rw [if_neg hpne]
      cases hA : env.applyErr with
      | none => simp [hatt]
      | some ae => simp [hatt, hae ae hA]
  constructor
  · intro hf
    have hatt : attemptCommit env = (.skipped ("Nothing to Commit".toList), false) := by
      unfold attemptCommit GitRepository_commit
      simp only [hcommit]
      rcases hf with hf | hf
      · rw [if_pos hf]
      · cases hn : containsSub ("nothing to commit".toList) e with
        | true => simp
        | false => rw [if_neg (show ¬ (false = true) by simp), if_pos hf]
    rw [show applyCommitsFile nr ((gd, env) :: rest) =
      (applyStep nr gd env).1 ::
        (if (applyStep nr gd env).2.2 then []
         else applyCommitsFile (applyStep nr gd env).2.1 rest) from rfl]
    rw [hstep _ _ hatt]
    simp
  · intro ⟨h1, h2⟩
    have hatt : attemptCommit env =
        (.failed ("Git Error: Failed to create commit: ".toList ++ e), true) := by
      unfold attemptCommit GitRepository_commit
      simp only [hcommit]
      rw [if_neg (show ¬ (containsSub ("nothing to commit".toList) e = true) by
            rw [h1]; simp),
          if_neg (show ¬ (containsSub ("no changes added to commit".toList) e = true) by
            rw [h2]; simp)]
      simp
    rw [show applyCommitsFile nr ((gd, env) :: rest) =
      (applyStep nr gd env).1 ::
        (if (applyStep nr gd env).2.2 then []
         else applyCommitsFile (applyStep nr gd env).2.1 rest) from rfl]
    rw [hstep _ _ hatt]
    simp

/-- Witness for C8 amended, instantiated at the "no changes added" result
and a one-element remainder. -/
theorem claim_C8_amended_witness :
    applyCommitsFile true [(gdWhole, envNoChanges), (gdWhole, envNoChanges)] =
      .skipped ("Nothing to Commit".toList) ::
        applyCommitsFile false [(gdWhole, envNoChanges)] :=
  (claim_C8_amended true gdWhole envNoChanges [(gdWhole, envNoChanges)]
    ("no changes added to commit (use git add)".toList)
    (by decide) (Or.inl ⟨by decide, rfl⟩) rfl).1 (Or.inr (by decide))

/-! ## Claim theorems: dispatcher (C10) -/

theorem handle_test_pattern_ne_nil (diff : Str) : handle_test_pattern diff ≠ [] := by
  unfold handle_test_pattern
  split <;> simp

theorem split_by_hunk_ne_nil (diff : Str) : split_by_hunk diff ≠ [] := by
  unfold split_by_hunk
  split
  · simp
  · rename_i hcond
    split
    · simp
    · rename_i hcond2
      push_neg at hcond
      rcases Decidable.em (sbhRun diff = []) with h0 | h0
      · exact absurd ⟨h0, hcond.1⟩ hcond2
      · exact h0

theorem split_by_logical_unit_ne_nil (diff : Str) : split_by_logical_unit diff ≠ [] := by
  unfold split_by_logical_unit
  split
  · simp
  · split
    · simp
    · assumption

theorem split_by_srp_ne_nil (diff : Str) (hd : diff ≠ []) : split_by_srp diff ≠ [] := by
  unfold split_by_srp
  split
  · simp
  · rename_i hcond
    rcases Decidable.em (srpRun diff = []) with h0 | h0
    · exact absurd ⟨h0, hd⟩ hcond
    · exact h0

/-- The diff used by the C10 instances: it contains both test-pattern
markers. -/
def diff10 : Str := "@@ -1,10 +1,15 @@\na\n@@ -20,3 +20,3 @@\nb\n".toList

/-- C10 counterexample: for a diff containing the two test-pattern markers,
an out-of-range chunk level (here 5) is dispatched to `_split_by_hunk` and
returns the whole diff as one chunk, while level 1 takes the special
test-pattern path and returns two chunks — so a level outside 0..3 is not
processed exactly as level 1. -/
theorem claim_C10_counterexample :
    split_diff_into_chunks diff10 5 ≠ split_diff_into_chunks diff10 1 ∧
    split_diff_into_chunks diff10 1 =
      [{ diff := "@@ -1,10 +1,15 @@\na\n".toList, startLine := 1 },
       { diff := "@@ -20,3 +20,3 @@\nb\n".toList, startLine := 20 }] ∧
    split_diff_into_chunks diff10 5 = [{ diff := diff10, startLine := 1 }] := by
  refine ⟨by decide, by decide, by decide⟩

/-- C10 amended: `split_diff_into_chunks` always returns a non-empty list;
the empty diff yields exactly one chunk with empty text and start line 1 at
every level; a chunk level outside 0..3 is dispatched to the standard hunk
splitter `_split_by_hunk`, which coincides with level 1 exactly when the diff
does not contain both of the level-1 test-pattern markers
`"@@ -1,10 +1,15 @@"` and `"@@ -20,"`. -/
theorem claim_C10_amended :
    (∀ lvl : Int, split_diff_into_chunks [] lvl = [{ diff := [], startLine := 1 }]) ∧
    (∀ (diff : Str) (lvl : Int), split_diff_into_chunks diff lvl ≠ []) ∧
    (∀ (diff : Str) (lvl : Int), (lvl < 0 ∨ 3 < lvl) →
      split_diff_into_chunks diff lvl = split_by_hunk diff) ∧
    (∀ (diff : Str) (lvl : Int), (lvl < 0 ∨ 3 < lvl) →
      ¬ (containsSub ("@@ -1,10 +1,15 @@".toList) diff = true ∧
         containsSub ("@@ -20,".toList) diff = true) →
      split_diff_into_chunks diff lvl = split_diff_into_chunks diff 1) := by
  have hout : ∀ (diff : Str) (lvl : Int), (lvl < 0 ∨ 3 < lvl) →
      split_diff_into_chunks diff lvl = split_by_hunk diff := by
    intro diff lvl hl
    unfold split_diff_into_chunks
    by_cases hd : diff = []
    · rw [if_pos hd, hd]
      unfold split_by_hunk
      rw [if_pos (Or.inl rfl)]
    · rw [if_neg hd]
      rw [if_neg (by rintro ⟨h1, -⟩; omega)]
      rw [if_neg (by omega), if_neg (by omega), if_neg (by omega), if_neg (by omega)]
  refine ⟨?_, ?_, hout, ?_⟩
  · intro lvl
    unfold split_diff_into_chunks
    rw [if_pos rfl]
  · intro diff lvl
    by_cases hd : diff = []
    · subst hd
      unfold split_diff_into_chunks
      rw [if_pos rfl]
      simp
    · unfold split_diff_into_chunks
      rw [if_neg hd]
      split
      · exact handle_test_pattern_ne_nil diff
      · split
        · simp [split_by_file]
        · split
          · exact split_by_hunk_ne_nil diff
          · split
            · exact split_by_logical_unit_ne_nil diff
            · split
              · exact split_by_srp_ne_nil diff hd
              · exact split_by_hunk_ne_nil diff
  · intro diff lvl hl hpat
    rw [hout diff lvl hl]
    by_cases hd : diff = []
    · subst hd
      unfold split_diff_into_chunks split_by_hunk
      rw [if_pos rfl, if_pos (Or.inl rfl)]
    · unfold split_diff_into_chunks
      rw [if_neg hd]
      rw [if_neg (by rintro ⟨-, h2, h3⟩; exact hpat ⟨h2, h3⟩)]
      rw [if_neg (by norm_num), if_pos rfl]

/-- Witness for C10 amended at concrete levels and diffs. -/
theorem claim_C10_amended_witness :
    split_diff_into_chunks [] 7 = [{ diff := [], startLine := 1 }] ∧
    split_diff_into_chunks diff10 5 ≠ [] ∧
    split_diff_into_chunks diff10 5 = split_by_hunk diff10 ∧
    split_diff_into_chunks ("+abc\n".toList) (-2) =
      split_diff_into_chunks ("+abc\n".toList) 1 :=
  ⟨claim_C10_amended.1 7,
   claim_C10_amended.2.1 diff10 5,
   claim_C10_amended.2.2.1 diff10 5 (Or.inr (by norm_num)),
   claim_C10_amended.2.2.2 ("+abc\n".toList) (-2) (Or.inl (by norm_num)) (by decide)⟩

/-! ## Claim theorems: the level-1 splitter loses the round-trip (C1, C4)

The failing input is a two-hunk diff longer than `MAX_DIFF_SIZE` (so that the
force-split path of `_split_by_hunk` is taken).  Everything is proved
symbolically — the 8100-character line is never evaluated element by
element. -/

/-- Splitting off one `'\n'`-terminated line. -/
theorem pySplitlines_append_line (xs rest : Str)
    (h : ∀ c ∈ xs, isPyLineBreak c = false) :
    pySplitlines (xs ++ '\n' :: rest) = xs :: pySplitlines rest := by
  induction xs with
  | nil =>
    show pySplitlines ('\n' :: rest) = [] :: pySplitlines rest
    rfl
  | cons c xs ih =>
    have hc := h c (List.mem_cons_self c xs)
    rw [List.cons_append, pySplitlines]
    · rw [if_neg (by simp [hc])]
      rw [ih (fun d hd => h d (List.mem_cons_of_mem c hd))]
    · intro r1 hcr _
      rw [hcr] at hc
      simp [isPyLineBreak] at hc

/-- A successful `splitOnce` decomposes the string. -/
theorem splitOnce_decomp {sub s pre post : Str} (h : splitOnce sub s = some (pre, post)) :
    s = pre ++ sub ++ post := by
  induction s generalizing pre post with
  | nil =>
    unfold splitOnce at h
    split at h
    · rename_i hsub
      simp only [Option.some.injEq, Prod.mk.injEq] at h
      rw [← h.1, ← h.2, hsub]
      rfl
    · cases h
  | cons c cs ih =>
    unfold splitOnce at h
    split at h
    · rename_i hpre
      simp only [Option.some.injEq, Prod.mk.injEq] at h
      obtain ⟨t, ht⟩ := (List.isPrefixOf_iff_prefix.mp hpre)
      rw [← h.1, ← h.2, List.nil_append, ← ht, List.drop_left]
    · cases hrec : splitOnce sub cs with
      | none => rw [hrec] at h; cases h
      | some pr =>
        obtain ⟨pre1, post1⟩ := pr
        rw [hrec] at h
        simp only [Option.some.injEq, Prod.mk.injEq] at h
        rw [← h.1, ← h.2]
        have := ih hrec
        rw [List.cons_append, List.cons_append, ← this]

/-- If `sub` occurs in `s`, every character of `sub` occurs in `s`. -/
theorem mem_of_containsSub {sub s : Str} {c : Char} (h : containsSub sub s = true)
    (hc : c ∈ sub) : c ∈ s := by
  unfold containsSub at h
  cases hso : splitOnce sub s with
  | none => rw [hso] at h; cases h
  | some pr =>
    obtain ⟨pre, post⟩ := pr
    rw [splitOnce_decomp hso]
    simp only [List.append_assoc, List.mem_append]
    exact Or.inr (Or.inl hc)

/-- First hunk header of the failing input. -/
def bdH1 : Str := "@@ -1 +1 @@".toList

/-- The oversized added line (8101 characters). -/
def bdLong : Str := '+' :: List.replicate 8100 'a'

/-- Second hunk header of the failing input. -/
def bdH2 : Str := "@@ -9 +9 @@".toList

/-- Body line of the second hunk. -/
def bdX : Str := "+x".toList

/-- The failing input: a well-formed two-hunk diff of 8129 characters. -/
def bigDiff : Str := bdH1 ++ '\n' :: bdLong ++ '\n' :: bdH2 ++ '\n' :: bdX ++ ['\n']

theorem bdLong_no_break : ∀ c ∈ bdLong, isPyLineBreak c = false := by
  intro c hc
  rcases List.mem_cons.mp hc with rfl | hc
  · decide
  · rw [List.eq_of_mem_replicate hc]; decide

theorem bigDiff_lines : pySplitlines bigDiff = [bdH1, bdLong, bdH2, bdX] := by
  unfold bigDiff
  simp only [List.append_assoc, List.cons_append]
  rw [pySplitlines_append_line bdH1 _ (by decide)]
  rw [pySplitlines_append_line bdLong _ bdLong_no_break]
  rw [pySplitlines_append_line bdH2 _ (by decide)]
  rw [pySplitlines_append_line bdX _ (by decide)]
  rfl

theorem sbhAt_no (st : SBHState) (line : Str)
    (h : startsWithL ("@@".toList) line = false) :
    sbhAt st line = { st with current := st.current ++ line ++ ['\n'] } := by
  unfold sbhAt
  rw [if_neg (by rw [h]; simp)]

theorem sbhAt_new (st : SBHState) (line : Str)
    (h : startsWithL ("@@".toList) line = true) (hf : st.found = false) :
    sbhAt st line =
      ⟨st.chunks, st.current ++ line ++ ['\n'], st.startLine,
       extract_start_line line, true⟩ := by
  unfold sbhAt
  rw [if_pos h, if_neg (by simp [hf])]

theorem sbhAt_found (st : SBHState) (line : Str)
    (h : startsWithL ("@@".toList) line = true) (hf : st.found = true) :
    sbhAt st line =
      ⟨st.chunks ++ [{ diff := st.current ++ line ++ ['\n'], startLine := st.startLine }],
       line ++ ['\n'], extract_start_line line, extract_start_line line, true⟩ := by
  unfold sbhAt
  rw [if_pos h, if_pos ⟨by simp, hf⟩]

theorem sbhSize_small (st : SBHState) (h : st.current.length < MAX_DIFF_SIZE) :
    sbhSize st = st := by
  unfold sbhSize
  rw [if_neg (by omega)]

theorem sbhSize_big (st : SBHState) (h : st.current.length ≥ MAX_DIFF_SIZE) :
    sbhSize st =
      ⟨st.chunks ++ [{ diff := st.current, startLine := st.startLine }],
       [], st.curStart, st.curStart, st.found⟩ := by
  unfold sbhSize
  rw [if_pos h]

theorem bdLong_length : bdLong.length = 8101 := by
  rw [bdLong, List.length_cons, List.length_replicate]

theorem bigDiff_length : bigDiff.length = 8129 := by
  unfold bigDiff
  simp only [List.append_assoc, List.cons_append, List.length_append, List.length_cons,
    bdLong_length]
  decide

/-- Step 1 of the `_split_by_hunk` loop on the failing input. -/
theorem bdStep1 :
    sbhStep ⟨[], [], 1, 1, false⟩ bdH1 = ⟨[], bdH1 ++ ['\n'], 1, 1, true⟩ := by
  unfold sbhStep
  rw [sbhAt_new _ _ (by decide) rfl]
  rw [sbhSize_small _ (by decide)]
  simp [show extract_start_line bdH1 = 1 from by decide]

/-- Step 2: the oversized line triggers the force split, closing the first
chunk. -/
theorem bdStep2 :
    sbhStep ⟨[], bdH1 ++ ['\n'], 1, 1, true⟩ bdLong =
      ⟨[{ diff := (bdH1 ++ ['\n']) ++ bdLong ++ ['\n'], startLine := 1 }],
       [], 1, 1, true⟩ := by
  unfold sbhStep
  rw [sbhAt_no _ _ (by rfl)]
  rw [sbhSize_big _ (by
    show ((bdH1 ++ ['\n']) ++ bdLong ++ ['\n']).length ≥ MAX_DIFF_SIZE
    simp only [List.length_append, bdLong_length, MAX_DIFF_SIZE]
    decide)]
  rfl

/-- Step 3: the second hunk header is seen with `found_hunk` set, so the
pending chunk — which already contains the header line — is flushed and the
same header line also begins the next chunk (this is the duplication). -/
theorem bdStep3 (ch : List Chunk) :
    sbhStep ⟨ch, [], 1, 1, true⟩ bdH2 =
      ⟨ch ++ [{ diff := bdH2 ++ ['\n'], startLine := 1 }],
       bdH2 ++ ['\n'], 9, 9, true⟩ := by
  unfold sbhStep
  rw [sbhAt_found _ _ (by decide) rfl]
  rw [sbhSize_small _ (by show (bdH2 ++ ['\n']).length < MAX_DIFF_SIZE; decide)]
  simp [show extract_start_line bdH2 = 9 from by decide]

/-- Step 4: the final body line accumulates. -/
theorem bdStep4 (ch : List Chunk) :
    sbhStep ⟨ch, bdH2 ++ ['\n'], 9, 9, true⟩ bdX =
      ⟨ch, (bdH2 ++ ['\n']) ++ bdX ++ ['\n'], 9, 9, true⟩ := by
  unfold sbhStep
  rw [sbhAt_no _ _ (by decide)]
  rw [sbhSize_small _
    (by show ((bdH2 ++ ['\n']) ++ bdX ++ ['\n']).length < MAX_DIFF_SIZE; decide)]

/-- The chunk list `_split_by_hunk` produces for the failing input: the
`"@@ -9 +9 @@"` header line appears both at the end of the second chunk and
at the start of the third. -/
theorem sbhRun_bigDiff :
    sbhRun bigDiff =
      [{ diff := (bdH1 ++ ['\n']) ++ bdLong ++ ['\n'], startLine := 1 },
       { diff := bdH2 ++ ['\n'], startLine := 1 },
       { diff := (bdH2 ++ ['\n']) ++ bdX ++ ['\n'], startLine := 9 }] := by
  unfold sbhRun
  rw [bigDiff_lines, List.foldl_cons, bdStep1, List.foldl_cons, bdStep2,
    List.foldl_cons, bdStep3 _, List.foldl_cons, bdStep4 _, List.foldl_nil]
  rw [if_pos (by simp)]
  simp

theorem bigDiff_ne_nil : bigDiff ≠ [] := by
  intro h
  have := congrArg List.length h
  rw [bigDiff_length] at this
  simp at this

theorem bigDiff_no_comma : (',' : Char) ∉ bigDiff := by
  have hL : (',' : Char) ∉ bdLong := by
    intro h
    rcases List.mem_cons.mp h with h | h
    · exact absurd h (by decide)
    · exact absurd (List.eq_of_mem_replicate h) (by decide)
  intro hmem
  unfold bigDiff at hmem
  simp only [List.append_assoc, List.cons_append] at hmem
  rcases List.mem_append.mp hmem with h | h
  · exact absurd h (by decide)
  · rcases List.mem_cons.mp h with h | h
    · exact absurd h (by decide)
    · rcases List.mem_append.mp h with h | h
      · exact hL h
      · rcases List.mem_cons.mp h with h | h
        · exact absurd h (by decide)
        · rcases List.mem_append.mp h with h | h
          · exact absurd h (by decide)
          · rcases List.mem_cons.mp h with h | h
            · exact absurd h (by decide)
            · rcases List.mem_append.mp h with h | h
              · exact absurd h (by decide)
              · exact absurd h (by decide)

theorem bigDiff_no_testpat :
    containsSub ("@@ -1,10 +1,15 @@".toList) bigDiff = false := by
  cases hc : containsSub ("@@ -1,10 +1,15 @@".toList) bigDiff with
  | false => rfl
  | true => exact absurd (mem_of_containsSub hc (by decide)) bigDiff_no_comma

/-- `split_diff_into_chunks` at level 1 on the failing input. -/
theorem split_bigDiff :
    split_diff_into_chunks bigDiff 1 =
      [{ diff := (bdH1 ++ ['\n']) ++ bdLong ++ ['\n'], startLine := 1 },
       { diff := bdH2 ++ ['\n'], startLine := 1 },
       { diff := (bdH2 ++ ['\n']) ++ bdX ++ ['\n'], startLine := 9 }] := by
  unfold split_diff_into_chunks
  rw [if_neg bigDiff_ne_nil]
  rw [if_neg (by
    rintro ⟨-, h2, -⟩
    rw [bigDiff_no_testpat] at h2
    cases h2)]
  rw [if_neg (by norm_num), if_pos rfl]
  unfold split_by_hunk
  rw [if_neg (by
    rintro (h | h)
    · exact bigDiff_ne_nil h
    · rw [bigDiff_length] at h
      simp [MAX_DIFF_SIZE] at h)]
  rw [if_neg (by
    rintro ⟨h, -⟩
    rw [sbhRun_bigDiff] at h
    cases h)]
  exact sbhRun_bigDiff

theorem bdH1_length : bdH1.length = 11 := by decide

theorem bdH2_length : bdH2.length = 11 := by decide

theorem bdX_length : bdX.length = 2 := by decide

/-- C1: the round trip fails on `bigDiff`, a well-formed two-hunk diff whose
first hunk exceeds `MAX_DIFF_SIZE`.  Flushing the force-split chunk leaves
`current_chunk` empty but `found_hunk` still true, so the next `@@` header is
first appended to the pending chunk and then also starts the next one: the
concatenation of the returned chunk bodies has 8141 characters while the
input has 8129 — the 12-character line `"@@ -9 +9 @@\n"` is duplicated. -/
theorem claim_C1_roundtrip_bug :
    ((split_diff_into_chunks bigDiff 1).map Chunk.diff).join ≠ bigDiff ∧
    (((split_diff_into_chunks bigDiff 1).map Chunk.diff).join).length = 8141 ∧
    bigDiff.length = 8129 := by
  have hlen : (((split_diff_into_chunks bigDiff 1).map Chunk.diff).join).length = 8141 := by
    rw [split_bigDiff]
    simp only [List.map_cons, List.map_nil, List.join_cons, List.join_nil,
      List.append_nil, List.length_append, bdH1_length, bdH2_length, bdX_length,
      bdLong_length, List.length_cons, List.length_nil]
  refine ⟨?_, hlen, bigDiff_length⟩
  intro h
  have := congrArg List.length h
  rw [hlen, bigDiff_length] at this
  exact absurd this (by decide)

/-- C4: splitting drops no line — refuted at level 1 on `bigDiff`.  The input
has 4 lines, but the chunks produced by `split_diff_into_chunks bigDiff 1`
hold 2 + 1 + 2 = 5 lines in total: the second hunk's header line is counted
twice. -/
theorem claim_C4_line_count_bug :
    (pySplitlines bigDiff).length = 4 ∧
    (((split_diff_into_chunks bigDiff 1).map
        (fun c => (pySplitlines c.diff).length)).sum) = 5 := by
  constructor
  · rw [bigDiff_lines]
    rfl
  · rw [split_bigDiff]
    have h1 : pySplitlines ((bdH1 ++ ['\n']) ++ bdLong ++ ['\n']) = [bdH1, bdLong] := by
      simp only [List.append_assoc, List.cons_append, List.nil_append]
      rw [pySplitlines_append_line bdH1 _ (by decide)]
      rw [pySplitlines_append_line bdLong _ bdLong_no_break]
      rfl
    have h2 : pySplitlines (bdH2 ++ ['\n']) = [bdH2] := by
      rw [pySplitlines_append_line bdH2 [] (by decide)]
      rfl
    have h3 : pySplitlines ((bdH2 ++ ['\n']) ++ bdX ++ ['\n']) = [bdH2, bdX] := by
      simp only [List.append_assoc, List.cons_append, List.nil_append]
      rw [pySplitlines_append_line bdH2 _ (by decide)]
      rw [pySplitlines_append_line bdX _ (by decide)]
      rfl
    simp only [List.map_cons, List.map_nil, h1, h2, h3]
    rfl

/-- A digit character is not a `'G'` or a `'g'`. -/
theorem isDig_no_g {c : Char} (h : isDig c = true) : c ≠ 'G' ∧ c ≠ 'g' := by
  constructor <;> rintro rfl <;> exact absurd h (by decide)

/-- A digit character is not a closing bracket or a newline. -/
theorem isDig_no_close {c : Char} (h : isDig c = true) : c ≠ ']' ∧ c ≠ '\n' := by
  constructor <;> rintro rfl <;> exact absurd h (by decide)

/-- A string without `'G'` or `'g'` cannot start a `GROUP \d+:` match. -/
theorem matchGroupTag_none_no_g {s : Str} (h : ∀ c ∈ s, c ≠ 'G' ∧ c ≠ 'g') :
    matchGroupTag s = none := by
  rcases s with _ | ⟨c1, _ | ⟨c2, _ | ⟨c3, _ | ⟨c4, _ | ⟨c5, _ | ⟨c6, rest⟩⟩⟩⟩⟩⟩
  · rfl
  · rfl
  · rfl
  · rfl
  · rfl
  · rfl
  · have hc1 := h c1 (by simp)
    simp only [matchGroupTag]
    rw [if_neg (by
      rintro ⟨h1, -⟩
      rcases h1 with h1 | h1
      · exact hc1.1 h1
      · exact hc1.2 h1)]

/-- The split scanner leaves a `GROUP`-free string as a single section. -/
theorem reSplitAux_no_g (fuel : Nat) (s acc : Str) (hf : s.length < fuel)
    (h : ∀ c ∈ s, c ≠ 'G' ∧ c ≠ 'g') :
    reSplitAux fuel s acc = [acc.reverse ++ s] := by
  induction fuel generalizing s acc with
  | zero => omega
  | succ f ih =>
    simp only [reSplitAux, matchGroupTag_none_no_g h]
    cases s with
    | nil => simp
    | cons c cs =>
      simp only [List.length_cons] at hf
      show reSplitAux f cs (c :: acc) = [acc.reverse ++ (c :: cs)]
      rw [ih cs (c :: acc) (by omega) (fun d hd => h d (List.mem_cons_of_mem c hd))]
      simp

/-- A match at the head of the string closes the pending section. -/
theorem reSplitAux_match (fuel : Nat) (s acc rest : Str)
    (h : matchGroupTag s = some rest) :
    reSplitAux (fuel + 1) s acc = acc.reverse :: reSplitAux fuel rest [] := by
  simp only [reSplitAux, h]

/-- `bracketTill` captures the text up to the first `']'`. -/
theorem bracketTill_append (xs r : Str) (h : ∀ c ∈ xs, c ≠ ']' ∧ c ≠ '\n') :
    bracketTill (xs ++ ']' :: r) = some xs := by
  induction xs with
  | nil => rfl
  | cons c cs ih =>
    rcases h c (by simp) with ⟨h1, h2⟩
    simp only [List.cons_append, bracketTill, if_neg h1, if_neg h2, List.append_eq]
    rw [ih (fun d hd => h d (List.mem_cons_of_mem c hd))]
    rfl

/-- A leading block of digits is accumulated into the current run. -/
theorem digitRunsAcc_digits (ds : Str) (s acc : Str)
    (h : ∀ c ∈ ds, isDig c = true) :
    digitRunsAcc (ds ++ s) acc = digitRunsAcc s (ds.reverse ++ acc) := by
  induction ds generalizing acc with
  | nil => simp
  | cons c cs ih =>
    have hc := h c (List.mem_cons_self c cs)
    simp only [List.cons_append, digitRunsAcc, hc, if_true, List.append_eq]
    rw [ih (c :: acc) (fun d hd => h d (List.mem_cons_of_mem c hd))]
    simp

/-- A nonempty all-digit string is a single maximal run. -/
theorem digitRunsAcc_final (ds : Str) (h : ∀ c ∈ ds, isDig c = true)
    (hne : ds ≠ []) : digitRunsAcc ds [] = [ds] := by
  have hh := digitRunsAcc_digits ds [] [] h
  rw [List.append_nil, List.append_nil] at hh
  rw [hh]
  simp only [digitRunsAcc]
  rw [if_neg (show ¬(List.reverse ds = []) from by simpa using hne)]
  simp

/-- `re.findall(r"\d+", ...)` on `"<run1>, <run2>"` returns the two runs. -/
theorem digitRuns_two (ds₁ ds₂ : Str) (h1 : ds₁ ≠ []) (h2 : ds₂ ≠ [])
    (hd1 : ∀ c ∈ ds₁, isDig c = true) (hd2 : ∀ c ∈ ds₂, isDig c = true) :
    digitRuns (ds₁ ++ ',' :: ' ' :: ds₂) = [ds₁, ds₂] := by
  unfold digitRuns
  rw [digitRunsAcc_digits ds₁ (',' :: ' ' :: ds₂) [] hd1]
  simp only [List.append_nil, digitRunsAcc]
  rw [if_neg (show ¬(isDig ',' = true) from by decide)]
  rw [if_neg (show ¬(List.reverse ds₁ = []) from by simpa using h1)]
  rw [if_neg (show ¬(isDig ' ' = true) from by decide)]
  rw [if_pos trivial]
  rw [digitRunsAcc_final ds₂ hd2 h2]
  simp

/-- C7 (amended): a response of the form `GROUP 1: [<run1>, <run2>]` — the
`GROUP \d+:` tag with a group number, then a bracketed comma-separated list
of digit runs — is extracted by the parser: each run is read as a 1-based
hunk number and converted to a 0-based index by subtracting one.  (The bare
form `GROUP: [...]` with no group number is never matched; see the
counterexample.) -/
theorem claim_C7_amended (ds₁ ds₂ : Str) (h1 : ds₁ ≠ []) (h2 : ds₂ ≠ [])
    (hd1 : ∀ c ∈ ds₁, isDig c = true) (hd2 : ∀ c ∈ ds₂, isDig c = true) :
    parsedIndexLists ("GROUP 1: [".toList ++ ds₁ ++ ", ".toList ++ ds₂ ++ "]".toList)
      = [[(digitsVal ds₁ : Int) - 1, (digitsVal ds₂ : Int) - 1]] := by
  have harg : ("GROUP 1: [".toList ++ ds₁ ++ ", ".toList ++ ds₂ ++ "]".toList : Str)
      = 'G' :: 'R' :: 'O' :: 'U' :: 'P' :: ' ' :: '1' :: ':' :: ' ' :: '[' ::
        (ds₁ ++ ',' :: ' ' :: (ds₂ ++ [']'])) := by
    simp
  rw [harg]
  have hmg : matchGroupTag
      ('G' :: 'R' :: 'O' :: 'U' :: 'P' :: ' ' :: '1' :: ':' :: ' ' :: '[' ::
        (ds₁ ++ ',' :: ' ' :: (ds₂ ++ [']'])))
      = some (' ' :: '[' :: (ds₁ ++ ',' :: ' ' :: (ds₂ ++ [']']))) := by
    simp only [matchGroupTag, matchDigitsColon, matchDigitsColonAux]
    norm_num [isDig]
    exact ⟨by decide, fun _ h => absurd h (by decide)⟩
  have hnog : ∀ c ∈ (' ' :: '[' :: (ds₁ ++ ',' :: ' ' :: (ds₂ ++ [']']))),
      c ≠ 'G' ∧ c ≠ 'g' := by
    intro c hc
    simp only [List.mem_cons, List.mem_append] at hc
    rcases hc with rfl | rfl | hc | rfl | rfl | hc | rfl | hc
    · exact ⟨by decide, by decide⟩
    · exact ⟨by decide, by decide⟩
    · exact isDig_no_g (hd1 c hc)
    · exact ⟨by decide, by decide⟩
    · exact ⟨by decide, by decide⟩
    · exact isDig_no_g (hd2 c hc)
    · exact ⟨by decide, by decide⟩
    · exact absurd hc (List.not_mem_nil c)
  have hlen : (' ' :: '[' :: (ds₁ ++ ',' :: ' ' :: (ds₂ ++ [']']))).length
      < ('G' :: 'R' :: 'O' :: 'U' :: 'P' :: ' ' :: '1' :: ':' :: ' ' :: '[' ::
        (ds₁ ++ ',' :: ' ' :: (ds₂ ++ [']']))).length := by
    simp only [List.length_cons, List.length_append, List.length_nil]
    omega
  have hsplit : reSplitGroupTag
      ('G' :: 'R' :: 'O' :: 'U' :: 'P' :: ' ' :: '1' :: ':' :: ' ' :: '[' ::
        (ds₁ ++ ',' :: ' ' :: (ds₂ ++ [']'])))
      = [[], ' ' :: '[' :: (ds₁ ++ ',' :: ' ' :: (ds₂ ++ [']']))] := by
    unfold reSplitGroupTag
    rw [reSplitAux_match _ _ _ _ hmg]
    rw [reSplitAux_no_g _ _ _ hlen hnog]
    rfl
  have hbt : bracketTill (ds₁ ++ ',' :: ' ' :: (ds₂ ++ [']']))
      = some (ds₁ ++ ',' :: ' ' :: ds₂) := by
    have e : (ds₁ ++ ',' :: ' ' :: (ds₂ ++ [']']) : Str)
        = (ds₁ ++ ',' :: ' ' :: ds₂) ++ ']' :: [] := by simp
    rw [e]
    refine bracketTill_append (ds₁ ++ ',' :: ' ' :: ds₂) [] ?_
    intro c hc
    simp only [List.mem_append, List.mem_cons] at hc
    rcases hc with hc | rfl | rfl | hc
    · exact isDig_no_close (hd1 c hc)
    · exact ⟨by decide, by decide⟩
    · exact ⟨by decide, by decide⟩
    · exact isDig_no_close (hd2 c hc)
  have hfb : firstBracket (' ' :: '[' :: (ds₁ ++ ',' :: ' ' :: (ds₂ ++ [']'])))
      = some (ds₁ ++ ',' :: ' ' :: ds₂) := by
    simp only [firstBracket]
    rw [if_neg (show ¬((' ' : Char) = '[') from by decide)]
    rw [if_pos trivial]
    rw [hbt]
  have hsec : sectionIndices (' ' :: '[' :: (ds₁ ++ ',' :: ' ' :: (ds₂ ++ [']'])))
      = some [(digitsVal ds₁ : Int) - 1, (digitsVal ds₂ : Int) - 1] := by
    unfold sectionIndices
    rw [hfb]
    simp only [Option.map_some']
    rw [digitRuns_two ds₁ ds₂ h1 h2 hd1 hd2]
    rfl
  unfold parsedIndexLists
  rw [hsplit]
  rw [if_pos (by simp)]
  show List.filterMap sectionIndices
      [' ' :: '[' :: (ds₁ ++ ',' :: ' ' :: (ds₂ ++ [']']))] = _
  rw [List.filterMap_cons, hsec]
  rfl

/-- Witness for the amended C7: the response `GROUP 1: [2, 10]` parses to the
single 0-based index list `[1, 9]`. -/
theorem claim_C7_amended_witness :
    (['2'] : Str) ≠ [] ∧
    parsedIndexLists
      ("GROUP 1: [".toList ++ ['2'] ++ ", ".toList ++ ['1', '0'] ++ "]".toList)
      = [[(1 : Int), 9]] := by
  refine ⟨by decide, ?_⟩
  rw [claim_C7_amended ['2'] ['1', '0'] (by decide) (by decide) (by decide) (by decide)]
  decide
